import Mathlib

/-!
# Node graph of the cloud-drive client (`client/nodetree/node.go`)

A shallow embedding of `Node`, its classification queries, the content
retrieval `Download`, the child mutations `AddChild` / `RemoveChild` and the
metadata merge `update`.

Modelling conventions
* A `*Node` is a `Ptr`: `none` is Go's `nil`, `some a` is the address of the
  cell `a` of the heap.  The heap is the list of all allocated nodes, so that
  pointer equality (`n == child`) is equality of addresses, and allocation
  appends a cell.
* The slice `Nodes []*Node` is modelled by two lists: `Nodes`, its elements
  (`len`), and `NodesSpare`, what its backing array holds between `len` and
  `cap`.  Spare slots holding nil at the end of the array are not listed: a
  missing spare slot and a nil one behave alike, since growing a slice
  beyond its capacity yields zeroed slots.  No two nodes share a backing
  array.  The other slices (`[]string`) are lists of their elements: their
  slots hold no pointers and are overwritten as a whole.
* A Go `string` is a `GoString`, the list of its bytes; a string literal
  denotes its UTF-8 bytes (`utf8`).  `uint64` is `Nat` (the code does no
  arithmetic on it).
* A runtime panic is an explicit `Except.error`.
-/

deriving instance DecidableEq for Except

namespace Nodetree

/-! ## Go strings -/

/-- A Go `string`: a sequence of bytes (numbers below 256). -/
abbrev GoString := List Nat

/-- The UTF-8 encoding of a code point (`utf8.EncodeRune`). -/
def encodeRune (r : Nat) : GoString :=
  if r < 0x80 then [r]
  else if r < 0x800 then [0xC0 + r / 64, 0x80 + r % 64]
  else if r < 0x10000 then [0xE0 + r / 4096, 0x80 + r / 64 % 64, 0x80 + r % 64]
  else [0xF0 + r / 262144, 0x80 + r / 4096 % 64, 0x80 + r / 64 % 64, 0x80 + r % 64]

/-- The bytes of a sequence of characters. -/
def utf8Chars : List Char → GoString
  | [] => []
  | c :: cs => encodeRune c.toNat ++ utf8Chars cs

/-- The Go string denoted by a string literal: its UTF-8 bytes. -/
def utf8 (s : String) : GoString := utf8Chars s.data

/-- A continuation byte, `0x80 .. 0xBF`. -/
def isCont (b : Nat) : Bool := decide (0x80 ≤ b) && decide (b ≤ 0xBF)

/-- The second byte allowed after the first byte `b0` of a three-byte
sequence (no overlong forms, no surrogates). -/
def isSecond3 (b0 b1 : Nat) : Bool :=
  decide ((if b0 = 0xE0 then 0xA0 else 0x80) ≤ b1)
    && decide (b1 ≤ (if b0 = 0xED then 0x9F else 0xBF))

/-- The second byte allowed after the first byte `b0` of a four-byte sequence
(no overlong forms, nothing above U+10FFFF). -/
def isSecond4 (b0 b1 : Nat) : Bool :=
  decide ((if b0 = 0xF0 then 0x90 else 0x80) ≤ b1)
    && decide (b1 ≤ (if b0 = 0xF4 then 0x8F else 0xBF))

/-- The well-formed UTF-8 sequence at the head of the bytes and the bytes
after it (`utf8.DecodeRune`); `none` when the head is ill-formed, where
`DecodeRune` returns `RuneError` with width 1. -/
def runeSplit : GoString → Option (GoString × GoString)
  | [] => none
  | b0 :: rest =>
    if b0 < 0x80 then some ([b0], rest)
    else if 0xC2 ≤ b0 ∧ b0 ≤ 0xDF then
      match rest with
      | b1 :: r1 => if isCont b1 then some ([b0, b1], r1) else none
      | [] => none
    else if 0xE0 ≤ b0 ∧ b0 ≤ 0xEF then
      match rest with
      | b1 :: b2 :: r2 =>
        if isSecond3 b0 b1 && isCont b2 then some ([b0, b1, b2], r2) else none
      | _ => none
    else if 0xF0 ≤ b0 ∧ b0 ≤ 0xF4 then
      match rest with
      | b1 :: b2 :: b3 :: r3 =>
        if isSecond4 b0 b1 && isCont b2 && isCont b3 then some ([b0, b1, b2, b3], r3)
        else none
      | _ => none
    else none

/-- The replacement character U+FFFD in UTF-8. -/
def replacementChar : GoString := [0xEF, 0xBF, 0xBD]

/-- Coercion to valid UTF-8 with a bound on the number of steps. -/
def coerceFuel : Nat → GoString → GoString
  | 0, _ => []
  | _ + 1, [] => []
  | fuel + 1, b :: rest =>
    match runeSplit (b :: rest) with
    | some (seq, rest1) => seq ++ coerceFuel fuel rest1
    | none => replacementChar ++ coerceFuel fuel rest

/-- What a Go string becomes when it is written as a JSON string and read
back: every ill-formed byte is replaced by U+FFFD, well-formed sequences are
kept.  Each step consumes a byte, so the length bounds the steps. -/
def coerceUTF8 (s : GoString) : GoString := coerceFuel s.length s

/-- Validity with a bound on the number of steps. -/
def validFuel : Nat → GoString → Bool
  | _, [] => true
  | 0, _ :: _ => false
  | fuel + 1, b :: rest =>
    match runeSplit (b :: rest) with
    | some (_, rest1) => validFuel fuel rest1
    | none => false

/-- Whether the bytes are valid UTF-8 (`utf8.ValidString`). -/
def validUTF8 (s : GoString) : Bool := validFuel s.length s

/-! ## Nodes -/

/-- A `time.Time` value, abstracted to the calendar year (the only part the
JSON encoder inspects: it rejects years outside `[0, 9999]`) and the remainder
of the instant.  The zero value of `time.Time` is January 1 of year 1. -/
structure Time where
  year : Int
  rest : Nat
deriving DecidableEq, Repr

/-- The zero value of `time.Time`. -/
def Time.zero : Time := ⟨1, 0⟩

/-- A `*Node`: `none` is `nil`. -/
abbrev Ptr := Option Nat

/-- The anonymous struct type of the field `Node.ContentProperties`. -/
structure ContentProps where
  Version : Nat
  Extension : GoString
  Size : Nat
  MD5 : GoString
  ContentType : GoString
  ContentDate : Time
deriving DecidableEq, Repr

/-- The struct `Node`.  The slice `Nodes []*Node` is the pair of `Nodes` (its
elements) and `NodesSpare` (the slots of its backing array beyond its length);
`client` is the interface value held by the node (`none` when it is nil),
identified by a number. -/
structure Node where
  ID : GoString
  Name : GoString
  Kind : GoString
  Parents : List GoString
  Status : GoString
  Labels : List GoString
  CreatedBy : GoString
  CreationDate : Time
  ModifiedDate : Time
  Version : Nat
  TempLink : GoString
  ContentProperties : ContentProps
  Nodes : List Ptr
  NodesSpare : List Ptr
  Root : Bool
  client : Option Nat
deriving DecidableEq, Repr

/-- The zero value of the anonymous content-properties struct. -/
def ContentProps.zero : ContentProps :=
  { Version := 0, Extension := [], Size := 0, MD5 := [], ContentType := [],
    ContentDate := Time.zero }

/-- The zero value of `Node` (what `new(Node)` or `&Node{}` holds). -/
def Node.zero : Node :=
  { ID := [], Name := [], Kind := [], Parents := [], Status := [], Labels := [],
    CreatedBy := [], CreationDate := Time.zero, ModifiedDate := Time.zero,
    Version := 0, TempLink := [], ContentProperties := ContentProps.zero,
    Nodes := [], NodesSpare := [], Root := false, client := none }

/-- The heap: cell `a` holds the node at address `a`. -/
abbrev Heap := List Node

/-- Runtime panics of the Go code. -/
inductive Panic where
  | nilDereference
  | indexOutOfRange
deriving DecidableEq, Repr

/-- Dereference a pointer: `none` for `nil` (and for an address that is not
allocated). -/
def deref (h : Heap) : Ptr → Option Node
  | none => none
  | some a => h[a]?

/-! ## Classification queries -/

/-- `func (n *Node) IsFile() bool`. -/
def Node.IsFile (n : Node) : Bool := n.Kind == utf8 "FILE"

/-- `func (n *Node) IsFolder() bool`. -/
def Node.IsFolder (n : Node) : Bool := n.Kind == utf8 "FOLDER"

/-- `func (n *Node) Available() bool`. -/
def Node.Available (n : Node) : Bool := n.Status == utf8 "AVAILABLE"

/-! ## Child mutation -/

/-- `func (n *Node) AddChild(child *Node)`.

    log.Debugf("adding %s under %s", child.Name, n.Name)
    n.Nodes = append(n.Nodes, child)
    child.client = n.client

The arguments of the log call read `child.Name` and `n.Name`, so a nil child
or receiver panics there.  `append` stores the child in the slot behind the
last element: the first spare slot, or a slot of a new backing array. -/
def AddChild (h : Heap) (n child : Ptr) : Except Panic Heap :=
  match n, child with
  | some a, some c =>
    match h[c]?, h[a]? with
    | some _, some recv =>
      -- n.Nodes = append(n.Nodes, child)
      let h1 := h.set a
        { recv with Nodes := recv.Nodes ++ [child], NodesSpare := recv.NodesSpare.tail }
      -- child.client = n.client
      match h1[a]?, h1[c]? with
      | some recv1, some cn => .ok (h1.set c { cn with client := recv1.client })
      | _, _ => .error Panic.nilDereference
    | _, _ => .error Panic.nilDereference
  | _, _ => .error Panic.nilDereference

/-- The built-in `copy(dst, src)` seen on the destination: its first
`min (len dst) (len src)` elements are overwritten with those of `src`. -/
def sliceCopy {α : Type} (dst src : List α) : List α :=
  src.take dst.length ++ dst.drop src.length

/-- The body of the `if n == child` branch of `RemoveChild`, as it acts on the
slice `s` that `n.Nodes` denotes there:

    if i < len(n.Nodes)-1 { copy(n.Nodes[i:], n.Nodes[i+1:]) }
    n.Nodes[len(n.Nodes)-1] = nil
    n.Nodes = n.Nodes[:len(n.Nodes)-1]

`len(s)-1` is a signed `int`; indexing an empty slice at `-1` panics. -/
def removeAt (s : List Ptr) (i : Nat) : Except Panic (List Ptr) :=
  let s1 := if (i : Int) < (s.length : Int) - 1
    then s.take i ++ sliceCopy (s.drop i) (s.drop (i + 1))
    else s
  if s1.length = 0 then .error Panic.indexOutOfRange
  else
    let s2 := s1.set (s1.length - 1) none
    .ok (s2.take (s2.length - 1))

/-- The loop `for i, n := range n.Nodes { if n == child { ...; break } }` of
`RemoveChild`, over the remaining elements of the receiver's slice, `i` being
the index of the first of them.  Inside the loop the range variable `n`
shadows the receiver, so every `n.Nodes` of the body is the slice of the
matched element itself: its last slot is set to nil and cut off, so it becomes
the first spare slot.  The result is the heap and the flag `found`. -/
def removeLoop (h : Heap) (child : Ptr) : List Ptr → Nat → Except Panic (Heap × Bool)
  | [], _ => .ok (h, false)
  | e :: rest, i =>
    if e = child then
      match e with
      | none => .error Panic.nilDereference
      | some a =>
        match h[a]? with
        | none => .error Panic.nilDereference
        | some en =>
          match removeAt en.Nodes i with
          | .error p => .error p
          | .ok s =>
            .ok (h.set a { en with Nodes := s, NodesSpare := none :: en.NodesSpare }, true)
    else removeLoop h child rest (i + 1)

/-- `func (n *Node) RemoveChild(child *Node)`.  After the loop the log call
reads `child.Name` and `n.Name` (here `n` is the receiver again). -/
def RemoveChild (h : Heap) (n child : Ptr) : Except Panic Heap :=
  match deref h n with
  | none => .error Panic.nilDereference
  | some recv =>
    match removeLoop h child recv.Nodes 0 with
    | .error p => .error p
    | .ok (h1, _) =>
      match deref h1 child, deref h1 n with
      | some _, some _ => .ok h1
      | _, _ => .error Panic.nilDereference

/-! ## Metadata merge: `encoding/json` on `Node`

`update` encodes the new node with `json.Marshal` and decodes the bytes into
the receiver with `json.Unmarshal`.  The JSON text is modelled by its content:
which keys of the object are present, and their values.

Encoding (`json.Marshal`), field by field in declaration order:
* `omitempty` drops a field whose value is an empty string, `0`, `false` or a
  slice of length 0.  A struct is never empty for `omitempty`, so the three
  `time.Time` fields and `contentProperties` are always written.
* a string is written coerced to valid UTF-8: every ill-formed byte becomes
  U+FFFD (`coerceUTF8`); the escapes of the JSON text are undone by the
  decoder, so the value read back is the coerced string.
* `time.Time` encodes itself (`MarshalJSON`) and fails when the year is
  outside `[0, 9999]`.
* the unexported field `client` is not written; a nil `*Node` is `null`.
* a cyclic value cannot be encoded; an acyclic one is encoded whatever its
  depth.

Decoding (`json.Unmarshal`) first checks the syntax of the whole text, before
anything is written: a text nested deeper than 10000 objects and arrays is
rejected there ("exceeded max depth").  Then it decodes into the existing
value: every key present overwrites its field, every absent key leaves its
field as it is.  A JSON array is decoded element by element into the existing
slice: element `i` is decoded into the slot `i`; when the slice is too short
it is lengthened by `SetLen(i + 1)`, which brings back the slot behind its
end with whatever pointer the backing array still holds there (a new array is
zeroed); a non-nil pointer found in the slot is followed and the object is
decoded into the node it points to, a nil pointer in the slot is replaced by
a newly allocated node; at the end the slice is cut to the number of elements
read by `SetLen`, which leaves the cut-off pointers in the backing array.
(Package documentation: "To unmarshal JSON into a pointer, Unmarshal first
handles the case of the JSON being the JSON literal null.  In that case,
Unmarshal sets the pointer to nil.  Otherwise, Unmarshal unmarshals the JSON
into the value pointed at by the pointer.  If the pointer is nil, Unmarshal
allocates a new value for it to point to.")
-/

/-- The two errors `update` returns (package `constants`). -/
inductive UpdateError where
  | ErrJSONEncoding
  | ErrJSONDecoding
deriving DecidableEq, Repr

/-- The JSON object written for `ContentProperties`: `none` is an absent key. -/
structure WireContent where
  version : Option Nat
  extension : Option GoString
  size : Option Nat
  md5 : Option GoString
  contentType : Option GoString
  contentDate : Option Time
deriving DecidableEq, Repr

/-- The keys of the JSON object of a node other than `nodes`, named by their
JSON names (`Parents` has the key "Parents"): `none` is an absent key. -/
structure WireFields where
  id : Option GoString
  name : Option GoString
  kind : Option GoString
  parents : Option (List GoString)
  status : Option GoString
  labels : Option (List GoString)
  createdBy : Option GoString
  creationDate : Option Time
  modifiedDate : Option Time
  version : Option Nat
  tempLink : Option GoString
  contentProperties : Option WireContent
  root : Option Bool
deriving DecidableEq, Repr

/-- The JSON value of a `*Node`: `null`, or an object with its keys and the
elements of its `nodes` array.  The encoder never writes an empty array
(`omitempty`), so the empty list stands for an absent `nodes` key. -/
inductive Wire where
  | null : Wire
  | obj (f : WireFields) (nodes : List Wire) : Wire
deriving Repr

/-- The nesting of the keys of an object other than `nodes`: 1 when an array
(`Parents`, `labels`) or an object (`contentProperties`) is among them. -/
def WireFields.depth (f : WireFields) : Nat :=
  if f.parents.isSome || f.labels.isSome || f.contentProperties.isSome then 1 else 0

mutual
/-- The nesting depth of the JSON text of a value: the number of objects and
arrays open at its deepest point. -/
def Wire.depth : Wire → Nat
  | Wire.null => 0
  | Wire.obj f kids =>
    1 + max f.depth
      (match kids with
       | [] => 0
       | _ :: _ => 1 + Wire.depthList kids)
/-- The largest nesting depth among the elements of an array. -/
def Wire.depthList : List Wire → Nat
  | [] => 0
  | w :: ws => max w.depth (Wire.depthList ws)
end

/-- The nesting the decoder accepts (`maxNestingDepth` of `encoding/json`). -/
def maxNestingDepth : Nat := 10000

/-- An `omitempty` string field: dropped when empty, else written coerced to
valid UTF-8. -/
def omitEmptyString (s : GoString) : Option GoString :=
  if s.length = 0 then none else some (coerceUTF8 s)

/-- An `omitempty` `uint64` field. -/
def omitEmptyNat (n : Nat) : Option Nat := if n = 0 then none else some n

/-- An `omitempty` `[]string` field: dropped when empty, else every element
is written coerced to valid UTF-8. -/
def omitEmptyList (l : List GoString) : Option (List GoString) :=
  if l.length = 0 then none else some (l.map coerceUTF8)

/-- An `omitempty` `bool` field. -/
def omitEmptyBool (b : Bool) : Option Bool := if b then some true else none

/-- Whether `Time.MarshalJSON` succeeds: the year must lie in `[0, 9999]`. -/
def Time.encodable (t : Time) : Bool := decide (0 ≤ t.year) && decide (t.year < 10000)

/-- Encoding of the `ContentProperties` struct; `none` is an encoding error. -/
def marshalContent (c : ContentProps) : Option WireContent :=
  if c.ContentDate.encodable then
    some { version := omitEmptyNat c.Version, extension := omitEmptyString c.Extension,
           size := omitEmptyNat c.Size, md5 := omitEmptyString c.MD5,
           contentType := omitEmptyString c.ContentType,
           contentDate := some c.ContentDate }
  else none

/-- The keys written for a node, `nodes` apart, given the encoded
`contentProperties`. -/
def marshalFields (n : Node) (cp : WireContent) : WireFields :=
  { id := omitEmptyString n.ID, name := omitEmptyString n.Name,
    kind := omitEmptyString n.Kind, parents := omitEmptyList n.Parents,
    status := omitEmptyString n.Status, labels := omitEmptyList n.Labels,
    createdBy := omitEmptyString n.CreatedBy,
    creationDate := some n.CreationDate, modifiedDate := some n.ModifiedDate,
    version := omitEmptyNat n.Version, tempLink := omitEmptyString n.TempLink,
    contentProperties := some cp, root := omitEmptyBool n.Root }

/-- Encode the elements of a `[]*Node` with `enc`; fails when one of them
fails. -/
def marshalList (enc : Ptr → Option Wire) : List Ptr → Option (List Wire)
  | [] => some []
  | p :: ps =>
    match enc p, marshalList enc ps with
    | some w, some ws => some (w :: ws)
    | _, _ => none

/-- Encoding of a node value; `none` is an encoding error.  The first
argument bounds the nesting depth: a record nested deeper than the bound is
rejected (see `Marshal`). -/
def marshalNode : Nat → Heap → Node → Option Wire
  | 0, _, _ => none
  | fuel + 1, h, n =>
    if n.CreationDate.encodable && n.ModifiedDate.encodable then
      match marshalContent n.ContentProperties with
      | none => none
      | some cp =>
        match marshalList (fun p =>
            match p with
            | none => some Wire.null
            | some a =>
              match h[a]? with
              | none => none
              | some c => marshalNode fuel h c) n.Nodes with
        | none => none
        | some kids => some (Wire.obj (marshalFields n cp) kids)
    else none

/-- Model of `json.Marshal(newNode)`; `none` is an encoding error.  A chain of
distinct nodes is no longer than the heap, so the bound `h.length` on the
recursion rejects exactly the records that reach themselves through `Nodes`;
an acyclic record is encoded whatever its depth. -/
def Marshal (h : Heap) (newNode : Ptr) : Option Wire :=
  match newNode with
  | none => some Wire.null
  | some a =>
    match h[a]? with
    | none => none
    | some n => marshalNode h.length h n

/-- Decoding of the `contentProperties` object into the existing struct. -/
def applyContent (w : WireContent) (c : ContentProps) : ContentProps :=
  { Version := w.version.getD c.Version, Extension := w.extension.getD c.Extension,
    Size := w.size.getD c.Size, MD5 := w.md5.getD c.MD5,
    ContentType := w.contentType.getD c.ContentType,
    ContentDate := w.contentDate.getD c.ContentDate }

/-- Decoding of the keys that precede `nodes` in the object into the existing
node: a present key overwrites its field. -/
def applyFields (f : WireFields) (n : Node) : Node :=
  { n with
    ID := f.id.getD n.ID, Name := f.name.getD n.Name, Kind := f.kind.getD n.Kind,
    Parents := f.parents.getD n.Parents, Status := f.status.getD n.Status,
    Labels := f.labels.getD n.Labels, CreatedBy := f.createdBy.getD n.CreatedBy,
    CreationDate := f.creationDate.getD n.CreationDate,
    ModifiedDate := f.modifiedDate.getD n.ModifiedDate,
    Version := f.version.getD n.Version, TempLink := f.tempLink.getD n.TempLink,
    ContentProperties :=
      match f.contentProperties with
      | none => n.ContentProperties
      | some w => applyContent w n.ContentProperties }

/-- Rewrite the node at address `a` (nothing happens at an address that is
not allocated). -/
def modifyAt (h : Heap) (a : Nat) (f : Node → Node) : Heap :=
  match h[a]? with
  | none => h
  | some n => h.set a (f n)

/-- The slot `i` of the slice `Nodes` of the node at `a`. -/
def slotAt (h : Heap) (a i : Nat) : Option Ptr :=
  match h[a]? with
  | none => none
  | some n => n.Nodes[i]?

/-- Lengthen the slice `Nodes` so that index `i` exists
(`if i >= v.Len() { v.SetLen(i + 1) }`): the slots that come back are the
first spare slots, with the pointers they still hold, and nil slots where the
spare slots run out (a new backing array is zeroed).  The decoder calls this
with `i` equal to the length, so one slot comes back, unless a nested
decoding has shortened this very slice. -/
def growNodes (i : Nat) (n : Node) : Node :=
  { n with
    Nodes := n.Nodes ++ (n.NodesSpare.take (i + 1 - n.Nodes.length)
      ++ List.replicate (i + 1 - n.Nodes.length - n.NodesSpare.length) none),
    NodesSpare := n.NodesSpare.drop (i + 1 - n.Nodes.length) }

/-- Store the pointer `p` in the slot `i` of `Nodes`. -/
def setSlot (i : Nat) (p : Ptr) (n : Node) : Node :=
  { n with Nodes := n.Nodes.set i p }

/-- Cut the slice `Nodes` to its first `k` elements (`v.SetLen(i)`): the
elements cut off stay in the backing array, as the first spare slots. -/
def cutNodes (k : Nat) (n : Node) : Node :=
  { n with Nodes := n.Nodes.take k, NodesSpare := n.Nodes.drop k ++ n.NodesSpare }

/-- Store the decoded `root` key. -/
def setRoot (b : Bool) (n : Node) : Node :=
  { n with Root := b }

/-- Decode the `root` key, when present, into the node at `a`. -/
def storeRoot (r : Option Bool) (h : Heap) (a : Nat) : Heap :=
  match r with
  | none => h
  | some b => modifyAt h a (setRoot b)

mutual
/-- Decode a JSON value into the node at address `a`: the keys before `nodes`,
then the `nodes` array, then `root` (the order of the object). -/
def decodeObject : Wire → Heap → Nat → Heap
  | Wire.null, h, _ => h
  | Wire.obj f kids, h, a =>
    let h1 := modifyAt h a (applyFields f)
    let h2 :=
      match kids with
      | [] => h1
      | _ :: _ => modifyAt (decodeArray kids h1 a 0) a (cutNodes kids.length)
    storeRoot f.root h2 a
/-- Decode the elements of a JSON array, from index `i` on, into the slice
`Nodes` of the node at `a`.  A `null` element sets the slot to nil.  An object
is decoded into the node the slot points to; when the slot holds nil a node
is allocated first and stored in the slot. -/
def decodeArray : List Wire → Heap → Nat → Nat → Heap
  | [], h, _, _ => h
  | w :: ws, h, a, i =>
    let h1 := modifyAt h a (growNodes i)
    let h2 :=
      match w with
      | Wire.null => modifyAt h1 a (setSlot i none)
      | Wire.obj _ _ =>
        match slotAt h1 a i with
        | some (some c) => decodeObject w h1 c
        | _ =>
          let c := h1.length
          decodeObject w (modifyAt (h1 ++ [Node.zero]) a (setSlot i (some c))) c
    decodeArray ws h2 a (i + 1)
end

/-- Model of `json.Unmarshal(v, n)`: the heap afterwards and whether an error
is returned.  The syntax check comes first and rejects a text nested deeper
than `maxNestingDepth` before anything is decoded; a nil target is rejected
next (`InvalidUnmarshalError`).  The text is the output of `json.Marshal` on
a `*Node`, so every value in it has the type of the field it is decoded into
and no other error arises. -/
def Unmarshal (v : Wire) (h : Heap) (n : Ptr) : Heap × Bool :=
  if maxNestingDepth < v.depth then (h, true)
  else
    match n with
    | none => (h, true)
    | some a =>
      match h[a]? with
      | none => (h, true)
      | some _ => (decodeObject v h a, false)

/-- `func (n *Node) update(newNode *Node) error`: the heap afterwards and the
error returned (`none` is Go's `nil` error). -/
def update (h : Heap) (n newNode : Ptr) : Heap × Option UpdateError :=
  -- v, err := json.Marshal(newNode)
  match Marshal h newNode with
  | none => (h, some UpdateError.ErrJSONEncoding)
  | some v =>
    -- if err := json.Unmarshal(v, n); err != nil
    match Unmarshal v h n with
    | (h1, true) => (h1, some UpdateError.ErrJSONDecoding)
    | (h1, false) => (h1, none)

/-! ## Content retrieval

`Download` talks to the collaborator held in `n.client` (the interface
`client`).  The collaborator is modelled by its methods as functions, and the
calls made to it are recorded in order.  `http.NewRequest` belongs to the
standard library: it fails when the URL cannot be parsed, which is taken as a
predicate on URLs.
-/

/-- An `*http.Request`, as far as `Download` builds it. -/
structure Request where
  Method : GoString
  URL : GoString
deriving DecidableEq, Repr

/-- An `*http.Response`: its status code and its body stream. -/
structure Response where
  StatusCode : Int
  Body : List Nat
deriving DecidableEq, Repr

/-- The two errors `Download` returns (package `constants`). -/
inductive DownloadError where
  | ErrCreatingHTTPRequest
  | ErrDoingHTTPRequest
deriving DecidableEq, Repr

/-- The interface `client`: `Do` returns a response or fails (`none`);
`CheckResponse` tells whether the response is accepted.  `GetNodeTree` is left
out (the type `NodeTree` is not part of this file). -/
structure Client where
  GetMetadataURL : GoString → GoString
  GetContentURL : GoString → GoString
  Do : Request → Option Response
  CheckResponse : Response → Bool
  GetTimeout : Nat

/-- A call made to the collaborator. -/
inductive Call where
  | GetMetadataURL (path : GoString)
  | GetContentURL (path : GoString)
  | Do (req : Request)
  | CheckResponse (res : Response)
  | GetNodeTree
  | GetTimeout
deriving DecidableEq, Repr

/-- Whether the call is a call of `Do`. -/
def Call.isDo : Call → Bool
  | Call.Do _ => true
  | _ => false

/-- Whether the call is a call of `CheckResponse`. -/
def Call.isCheckResponse : Call → Bool
  | Call.CheckResponse _ => true
  | _ => false

/-- What lies outside the node graph: which URLs `http.NewRequest` can parse,
and the collaborator behind each client number. -/
structure World where
  validURL : GoString → Bool
  clients : Nat → Client

/-- `http.NewRequest(method, url, nil)` for a valid method: `none` is an
error. -/
def NewRequest (w : World) (method url : GoString) : Option Request :=
  if w.validURL url then some { Method := method, URL := url } else none

/-- The outcome of `Download`: the heap afterwards, the calls made to the
collaborator, the stream returned (`none` is nil) and the error returned
(`none` is nil). -/
structure Downloaded where
  heap : Heap
  calls : List Call
  body : Option (List Nat)
  err : Option DownloadError
deriving DecidableEq, Repr

/-- `func (n *Node) Download() (io.ReadCloser, error)`.

    url := n.client.GetContentURL(fmt.Sprintf("nodes/%s/content", n.ID))
    req, err := http.NewRequest("GET", url, nil)
    if err != nil { return nil, constants.ErrCreatingHTTPRequest }
    res, err := n.client.Do(req)
    if err != nil { return nil, constants.ErrDoingHTTPRequest }
    return res.Body, nil

A nil receiver or a nil `client` panics at `n.client.GetContentURL`. -/
def Download (w : World) (h : Heap) (n : Ptr) : Except Panic Downloaded :=
  match deref h n with
  | none => .error Panic.nilDereference
  | some nv =>
    match nv.client with
    | none => .error Panic.nilDereference
    | some k =>
      let path := utf8 "nodes/" ++ nv.ID ++ utf8 "/content"
      let url := (w.clients k).GetContentURL path
      match NewRequest w (utf8 "GET") url with
      | none =>
        .ok { heap := h, calls := [Call.GetContentURL path], body := none,
              err := some DownloadError.ErrCreatingHTTPRequest }
      | some req =>
        match (w.clients k).Do req with
        | none =>
          .ok { heap := h, calls := [Call.GetContentURL path, Call.Do req], body := none,
                err := some DownloadError.ErrDoingHTTPRequest }
        | some res =>
          .ok { heap := h, calls := [Call.GetContentURL path, Call.Do req],
                body := some res.Body, err := none }

/-! ## Example heaps -/

/-- A node without children, named `name`. -/
def leafNode (name : String) : Node := { Node.zero with Name := utf8 name }

/-- Cell 0 is a parent with children `[A, B, C]` (cells 1, 2, 3), all three
without children of their own. -/
def heapABC : Heap :=
  [{ leafNode "p" with Nodes := [some 1, some 2, some 3] },
   leafNode "A", leafNode "B", leafNode "C"]

/-- Cell 0 is a parent whose slice holds the same child (cell 1) twice. -/
def heapTwice : Heap :=
  [{ leafNode "p" with Nodes := [some 1, some 1] }, leafNode "c"]

/-- As `heapABC`, but `B` has the children `[X, Y, Z]` (cells 4, 5, 6). -/
def heapDeep : Heap :=
  [{ leafNode "p" with Nodes := [some 1, some 2, some 3] },
   leafNode "A", { leafNode "B" with Nodes := [some 4, some 5, some 6] }, leafNode "C",
   leafNode "X", leafNode "Y", leafNode "Z"]

/-- The heap `heapDeep` in which `B` has lost its second child; the slot cut
off `B`'s slice holds nil. -/
def heapDeepAfter : Heap :=
  [{ leafNode "p" with Nodes := [some 1, some 2, some 3] },
   leafNode "A", { leafNode "B" with Nodes := [some 4, some 6], NodesSpare := [none] },
   leafNode "C",
   leafNode "X", leafNode "Y", leafNode "Z"]

/-- A parent holding client 7 (cell 0) and a node holding client 3 (cell 1). -/
def heapClients : Heap :=
  [{ leafNode "p" with client := some 7 }, { leafNode "c" with client := some 3 }]

/-- The existing node of the merge scenario: `children = [X]` (cell 2),
`root = true`, version 5 and client 7. -/
def mergeNode : Node :=
  { Node.zero with
      ID := utf8 "n1", Name := utf8 "old.txt", Kind := utf8 "FOLDER", Parents := [utf8 "p0"],
      Version := 5, Nodes := [some 2], Root := true, client := some 7 }

/-- The new record of the merge scenario: the name "foo.txt", the kind "FILE"
and the parents `["p1"]`. -/
def mergeRecord : Node :=
  { Node.zero with Name := utf8 "foo.txt", Kind := utf8 "FILE", Parents := [utf8 "p1"] }

/-- The merge scenario: cell 0 is an existing node with `children = [X]`
(cell 2), `root = true` and client 7; cell 1 is the new record with the name
"foo.txt", the kind "FILE" and the parents `["p1"]`. -/
def heapMerge : Heap := [mergeNode, mergeRecord, leafNode "X"]

/-- As `heapMerge`, but the new record (cell 1) has a child of its own, `Y`
(cell 3). -/
def heapMergeKids : Heap :=
  [mergeNode, { mergeRecord with Nodes := [some 3] }, leafNode "X", leafNode "Y"]

/-- Cell 0 is a node without children and with `root = false`; cell 1 is a
record with `root = true`. -/
def heapRoot : Heap :=
  [{ leafNode "n" with ID := utf8 "a" }, { leafNode "r" with Root := true }]

/-- Cell 0 is a node without children; cell 1 is a record whose only child is
`X` (cell 2). -/
def heapKids : Heap :=
  [{ leafNode "n" with ID := utf8 "a" }, { leafNode "r" with Nodes := [some 2] }, leafNode "X"]

/-- Cell 0 is a node that is its own child; cell 1 is a record with the name
"foo.txt", the kind "FILE", the parents `["p1"]`, no id, `root = false` and
one child, cell 2, which has the id "x", the name "bar", the kind "FOLDER",
the parents `["p2"]` and `root = true`. -/
def heapSelfChild : Heap :=
  [{ Node.zero with ID := utf8 "a", Name := utf8 "old.txt", Nodes := [some 0] },
   { Node.zero with
       Name := utf8 "foo.txt", Kind := utf8 "FILE", Parents := [utf8 "p1"], Nodes := [some 2] },
   { Node.zero with
       ID := utf8 "x", Name := utf8 "bar", Kind := utf8 "FOLDER", Parents := [utf8 "p2"],
       Root := true }]

/-- Cell 0 is a node with the id "a"; cell 1 is a record with the id "b". -/
def heapIds : Heap :=
  [{ leafNode "n" with ID := utf8 "a" }, { leafNode "r" with ID := utf8 "b" }]

/-- Cell 0 is a node with three non-zero timestamps; cell 1 is the all-default
record `&Node{}`. -/
def heapDates : Heap :=
  [{ Node.zero with
      ID := utf8 "a", Name := utf8 "n", Version := 3, CreationDate := ⟨2015, 100⟩,
      ModifiedDate := ⟨2016, 200⟩,
      ContentProperties := { ContentProps.zero with Size := 42, ContentDate := ⟨2014, 50⟩ } },
   Node.zero]

/-- The node of `heapDates` after the merge of the all-default record: the
three timestamps are the zero time. -/
def heapDatesMerged : Node :=
  { Node.zero with
      ID := utf8 "a", Name := utf8 "n", Version := 3, CreationDate := Time.zero,
      ModifiedDate := Time.zero,
      ContentProperties := { ContentProps.zero with Size := 42, ContentDate := Time.zero } }

/-- A collaborator that serves content under "https://cdn/", fails to execute
the request for the node "down" and answers every other request with the
status 404 and the body `[104, 105]`. -/
def cdnClient : Client :=
  { GetMetadataURL := fun p => utf8 "https://meta/" ++ p,
    GetContentURL := fun p => utf8 "https://cdn/" ++ p,
    Do := fun req =>
      if req.URL = utf8 "https://cdn/nodes/down/content" then none
      else some { StatusCode := 404, Body := [104, 105] },
    CheckResponse := fun res => decide (res.StatusCode = 200),
    GetTimeout := 30 }

/-- A world in which every client number stands for `cdnClient` and a URL
with the broken escape "%/" cannot be parsed. -/
def cdnWorld : World :=
  { validURL := fun u => !(u == utf8 "https://cdn/nodes/%/content"),
    clients := fun _ => cdnClient }

/-- Three nodes holding client 7: a folder in the trash with the id "f1"
(cell 0), a node with the id "%" (cell 1) and a node with the id "down"
(cell 2). -/
def heapDownload : Heap :=
  [{ Node.zero with
       ID := utf8 "f1", Kind := utf8 "FOLDER", Status := utf8 "TRASH", client := some 7 },
   { Node.zero with ID := utf8 "%", client := some 7 },
   { Node.zero with ID := utf8 "down", client := some 7 }]

/-- Cell 0 is a parent whose only child is cell 1; cell 2 is a distinct node
with the same id and the same field values as cell 1. -/
def heapTwin : Heap :=
  [{ leafNode "p" with Nodes := [some 1] },
   { Node.zero with ID := utf8 "f1", Name := utf8 "a.txt", Kind := utf8 "FILE" },
   { Node.zero with ID := utf8 "f1", Name := utf8 "a.txt", Kind := utf8 "FILE" }]

/-- Cell 0 is a parent whose only child, cell 1, has no children. -/
def heapOnly : Heap :=
  [{ leafNode "p" with Nodes := [some 1] }, leafNode "c"]

/-- A single node without children. -/
def heapSolo : Heap := [leafNode "p"]

/-- The end-to-end scenario: the root folder "r" holding client 7 (cell 0)
and the available file "f1" of size 42 (cell 1). -/
def heapScenario : Heap :=
  [{ Node.zero with ID := utf8 "r", Kind := utf8 "FOLDER", Root := true, client := some 7 },
   { Node.zero with
       ID := utf8 "f1", Kind := utf8 "FILE", Status := utf8 "AVAILABLE",
       ContentProperties := { ContentProps.zero with Size := 42 } }]

/-- Cell 0 is a node with version 5; cell 1 is a record with version 3. -/
def heapVersions : Heap :=
  [{ leafNode "n" with Version := 5 }, { leafNode "r" with Version := 3 }]

/-- Cell 0 is a node with version 5 that is its own child; cell 1 is a record
with version 7 whose only child, cell 2, has version 2. -/
def heapSelfChildVersion : Heap :=
  [{ leafNode "n" with Version := 5, Nodes := [some 0] },
   { leafNode "r" with Version := 7, Nodes := [some 2] },
   { leafNode "X" with Version := 2 }]

/-- Cell 0 is a node; cell 1 is a record whose name is the single byte
`0xFF`, which is not valid UTF-8, and whose id is the bytes `0x61 0xC3`, an
"a" followed by a truncated two-byte sequence. -/
def heapBadBytes : Heap :=
  [{ leafNode "n" with ID := utf8 "a" },
   { Node.zero with
       ID := [0x61, 0xC3], Name := [0xFF], Kind := utf8 "FILE", Parents := [utf8 "p1"] }]

/-- Cell 0 is a node with the id "a", the version 5 and `root = false` whose
slice `Nodes` is `[X]` (cell 2) and still holds a pointer to the node itself
in its first spare slot, as after a merge that cut the slice `[X, n]` to one
element; cell 1 is a record with the name "foo.txt", the kind "FILE", the
parents `["p1"]`, the version 7 and two children, cells 3 and 4; cell 4 has
the id "m", the name "bar", the kind "FOLDER", the parents `["p2"]`, the
version 2 and `root = true`. -/
def heapStale : Heap :=
  [{ Node.zero with
       ID := utf8 "a", Name := utf8 "old.txt", Version := 5,
       Nodes := [some 2], NodesSpare := [some 0] },
   { Node.zero with
       Name := utf8 "foo.txt", Kind := utf8 "FILE", Parents := [utf8 "p1"], Version := 7,
       Nodes := [some 3, some 4] },
   leafNode "X", leafNode "c1",
   { Node.zero with
       ID := utf8 "m", Name := utf8 "bar", Kind := utf8 "FOLDER", Parents := [utf8 "p2"],
       Version := 2, Root := true }]

/-- The cell `i` of a chain of `k` nodes: each node but the last has the next
cell as its only child. -/
def chainCell (k i : Nat) : Node :=
  { Node.zero with Nodes := if i + 1 < k then [some (i + 1)] else [] }

/-- A chain of `k` nodes in the cells `0 .. k - 1`, followed by one node
without children in the cell `k`. -/
def chainHeap (k : Nat) : Heap :=
  (List.range k).map (chainCell k) ++ [leafNode "n"]

/-- The keys written for a node all of whose encoded fields are default: the
three zero timestamps and `contentProperties` with its zero timestamp. -/
def zeroFields : WireFields :=
  { id := none, name := none, kind := none, parents := none, status := none,
    labels := none, createdBy := none, creationDate := some Time.zero,
    modifiedDate := some Time.zero, version := none, tempLink := none,
    contentProperties := some
      { version := none, extension := none, size := none, md5 := none,
        contentType := none, contentDate := some Time.zero },
    root := none }

/-- The JSON value of a chain of `j + 1` default nodes. -/
def chainWire : Nat → Wire
  | 0 => Wire.obj zeroFields []
  | j + 1 => Wire.obj zeroFields [chainWire j]

/-- The pointers a node's slice `Nodes` holds: its elements and what is left
in its spare slots. -/
def Node.held (n : Node) : List Ptr := n.Nodes ++ n.NodesSpare

/-- The node at `c` is reached from the node at `a` by following, one step or
more, the pointers held in the slices `Nodes` (spare slots included). -/
inductive Descendant (h : Heap) (a : Nat) : Nat → Prop where
  | child (nv : Node) (c : Nat) :
      h[a]? = some nv → some c ∈ nv.held → Descendant h a c
  | step (b : Nat) (nb : Node) (c : Nat) :
      Descendant h a b → h[b]? = some nb → some c ∈ nb.held → Descendant h a c

/-- An address the nested decoding may write to: a member of the set `S`, or
an address allocated at or after `N0`. -/
def Reachable (S : Nat → Prop) (N0 k : Nat) : Prop := S k ∨ N0 ≤ k

/-- The heap has at least `N0` cells, and the pointers held by the node `n`
and by every node in `S` or allocated from `N0` on lead again into `S` or to
nodes allocated from `N0` on. -/
def Closed (S : Nat → Prop) (N0 n : Nat) (h : Heap) : Prop :=
  N0 ≤ h.length ∧
    ∀ k nk c, (Reachable S N0 k ∨ k = n) → h[k]? = some nk → some c ∈ nk.held →
      Reachable S N0 c

/-- Every node of `h` is still allocated in `h1` and holds the same `client`. -/
def KeepsClient (h h1 : Heap) : Prop :=
  h.length ≤ h1.length ∧
    ∀ (k : Nat) (nk : Node), h[k]? = some nk →
      ∃ nk1 : Node, h1[k]? = some nk1 ∧ nk1.client = nk.client

/-- The step from `h` to `h1` keeps a closed heap closed and does not touch
the cell `n`. -/
def Framed (S : Nat → Prop) (N0 n : Nat) (h h1 : Heap) : Prop :=
  Closed S N0 n h → Closed S N0 n h1 ∧ h1[n]? = h[n]?

/-- The two nodes agree on every field but the slice `Nodes`. -/
def SameButNodes (x y : Node) : Prop :=
  { x with Nodes := [], NodesSpare := [] } = { y with Nodes := [], NodesSpare := [] }

/-! ## UTF-8 coercion: lemmas -/

theorem runeSplit_eq {s seq rest : GoString} (hs : runeSplit s = some (seq, rest)) :
    s = seq ++ rest ∧ 0 < seq.length := by
  unfold runeSplit at hs
  split at hs
  · exact absurd hs (by simp)
  · split at hs
    · simp only [Option.some.injEq, Prod.mk.injEq] at hs
      obtain ⟨h1, h2⟩ := hs
      subst h1; subst h2; simp
    · split at hs
      · split at hs
        · split at hs
          · simp only [Option.some.injEq, Prod.mk.injEq] at hs
            obtain ⟨h1, h2⟩ := hs
            subst h1; subst h2; simp
          · exact absurd hs (by simp)
        · exact absurd hs (by simp)
      · split at hs
        · split at hs
          · split at hs
            · simp only [Option.some.injEq, Prod.mk.injEq] at hs
              obtain ⟨h1, h2⟩ := hs
              subst h1; subst h2; simp
            · exact absurd hs (by simp)
          · exact absurd hs (by simp)
        · split at hs
          · split at hs
            · split at hs
              · simp only [Option.some.injEq, Prod.mk.injEq] at hs
                obtain ⟨h1, h2⟩ := hs
                subst h1; subst h2; simp
              · exact absurd hs (by simp)
            · exact absurd hs (by simp)
          · exact absurd hs (by simp)

theorem runeSplit_append {s seq rest : GoString} (hs : runeSplit s = some (seq, rest))
    (t : GoString) : runeSplit (seq ++ t) = some (seq, t) := by
  unfold runeSplit at hs
  split at hs
  · exact absurd hs (by simp)
  · next b0 r =>
    split at hs
    · next h0 =>
      simp only [Option.some.injEq, Prod.mk.injEq] at hs
      obtain ⟨h1, _⟩ := hs
      subst h1
      simp [runeSplit, h0]
    · next h0 =>
      split at hs
      · next h2 =>
        split at hs
        · split at hs
          · next hc =>
            simp only [Option.some.injEq, Prod.mk.injEq] at hs
            obtain ⟨h1, _⟩ := hs
            subst h1
            simp [runeSplit, h0, h2, hc]
          · exact absurd hs (by simp)
        · exact absurd hs (by simp)
      · next h2 =>
        split at hs
        · next h3 =>
          split at hs
          · split at hs
            · next hc =>
              simp only [Option.some.injEq, Prod.mk.injEq] at hs
              obtain ⟨h1, _⟩ := hs
              subst h1
              simp only [Bool.and_eq_true] at hc
              simp [runeSplit, h0, h2, h3, hc.1, hc.2]
            · exact absurd hs (by simp)
          · exact absurd hs (by simp)
        · next h3 =>
          split at hs
          · next h4 =>
            split at hs
            · split at hs
              · next hc =>
                simp only [Bool.and_eq_true] at hc
                simp only [Option.some.injEq, Prod.mk.injEq] at hs
                obtain ⟨h1, _⟩ := hs
                subst h1
                simp [runeSplit, h0, h2, h3, h4, hc.1.1, hc.1.2, hc.2]
              · exact absurd hs (by simp)
            · exact absurd hs (by simp)
          · exact absurd hs (by simp)

theorem runeSplit_replacement (t : GoString) :
    runeSplit (replacementChar ++ t) = some (replacementChar, t) := by
  simp [replacementChar, runeSplit, isSecond3, isCont]

theorem coerceFuel_enough : ∀ (f1 f2 : Nat) (s : GoString),
    s.length ≤ f1 → s.length ≤ f2 →
    coerceFuel f1 s = coerceFuel f2 s := by
  intro f1
  induction f1 with
  | zero =>
    intro f2 s h1 _
    have hs : s = [] := List.length_eq_zero.mp (Nat.le_zero.mp h1)
    subst hs
    cases f2 <;> rfl
  | succ f1 ih =>
    intro f2 s h1 h2
    cases s with
    | nil => cases f2 <;> rfl
    | cons b rest =>
      cases f2 with
      | zero => simp at h2
      | succ f2 =>
        simp only [List.length_cons, Nat.add_le_add_iff_right] at h1 h2
        simp only [coerceFuel]
        cases hsplit : runeSplit (b :: rest) with
        | none => simp only []; rw [ih f2 rest h1 h2]
        | some p =>
          obtain ⟨seq, rest1⟩ := p
          obtain ⟨he, hpos⟩ := runeSplit_eq hsplit
          have hlen : (b :: rest).length = seq.length + rest1.length := by
            rw [he, List.length_append]
          simp only [List.length_cons] at hlen
          simp only []
          rw [ih f2 rest1 (by omega) (by omega)]

theorem coerceUTF8_nil : coerceUTF8 [] = [] := rfl

theorem coerceUTF8_step {s seq rest : GoString} (hs : runeSplit s = some (seq, rest)) :
    coerceUTF8 s = seq ++ coerceUTF8 rest := by
  obtain ⟨he, hpos⟩ := runeSplit_eq hs
  cases s with
  | nil => simp [runeSplit] at hs
  | cons b r =>
    have hlen : (b :: r).length = seq.length + rest.length := by
      rw [he, List.length_append]
    simp only [List.length_cons] at hlen
    unfold coerceUTF8
    simp only [List.length_cons, coerceFuel, hs]
    rw [coerceFuel_enough r.length rest.length rest (by omega) (Nat.le_refl _)]

theorem coerceUTF8_bad {b : Nat} {rest : GoString} (hs : runeSplit (b :: rest) = none) :
    coerceUTF8 (b :: rest) = replacementChar ++ coerceUTF8 rest := by
  unfold coerceUTF8
  simp only [List.length_cons, coerceFuel, hs]

/-- Coercing twice is coercing once: the coerced bytes are valid UTF-8. -/
theorem coerceUTF8_idem : ∀ (k : Nat) (s : GoString), s.length ≤ k →
    coerceUTF8 (coerceUTF8 s) = coerceUTF8 s := by
  intro k
  induction k with
  | zero =>
    intro s hk
    have hs : s = [] := List.length_eq_zero.mp (Nat.le_zero.mp hk)
    subst hs
    rfl
  | succ k ih =>
    intro s hk
    cases s with
    | nil => rfl
    | cons b rest =>
      simp only [List.length_cons, Nat.add_le_add_iff_right] at hk
      cases hsplit : runeSplit (b :: rest) with
      | none =>
        rw [coerceUTF8_bad hsplit,
          coerceUTF8_step (runeSplit_replacement (coerceUTF8 rest)), ih rest hk]
      | some p =>
        obtain ⟨seq, rest1⟩ := p
        obtain ⟨he, hpos⟩ := runeSplit_eq hsplit
        have hlen : (b :: rest).length = seq.length + rest1.length := by
          rw [he, List.length_append]
        simp only [List.length_cons] at hlen
        rw [coerceUTF8_step hsplit,
          coerceUTF8_step (runeSplit_append hsplit (coerceUTF8 rest1)), ih rest1 (by omega)]

theorem coerceUTF8_coerceUTF8 (s : GoString) : coerceUTF8 (coerceUTF8 s) = coerceUTF8 s :=
  coerceUTF8_idem s.length s (Nat.le_refl _)

theorem validFuel_coerce : ∀ (f : Nat) (s : GoString), s.length ≤ f → validFuel f s = true →
    coerceUTF8 s = s := by
  intro f
  induction f with
  | zero =>
    intro s hk _
    have hs : s = [] := List.length_eq_zero.mp (Nat.le_zero.mp hk)
    subst hs
    rfl
  | succ f ih =>
    intro s hk hv
    cases s with
    | nil => rfl
    | cons b rest =>
      simp only [List.length_cons, Nat.add_le_add_iff_right] at hk
      simp only [validFuel] at hv
      cases hsplit : runeSplit (b :: rest) with
      | none => rw [hsplit] at hv; simp at hv
      | some p =>
        obtain ⟨seq, rest1⟩ := p
        rw [hsplit] at hv
        simp only [] at hv
        obtain ⟨he, hpos⟩ := runeSplit_eq hsplit
        have hlen : (b :: rest).length = seq.length + rest1.length := by
          rw [he, List.length_append]
        simp only [List.length_cons] at hlen
        rw [coerceUTF8_step hsplit, ih rest1 (by omega) hv, ← he]

/-- Valid UTF-8 is written and read back unchanged. -/
theorem coerceUTF8_of_valid (s : GoString) (hv : validUTF8 s = true) : coerceUTF8 s = s :=
  validFuel_coerce s.length s (Nat.le_refl _) hv

/-- The bytes of the string literals the code compares with, and their
validity. -/
theorem utf8_literals :
    utf8 "FILE" = [70, 73, 76, 69]
    ∧ utf8 "FOLDER" = [70, 79, 76, 68, 69, 82]
    ∧ utf8 "AVAILABLE" = [65, 86, 65, 73, 76, 65, 66, 76, 69]
    ∧ utf8 "GET" = [71, 69, 84]
    ∧ utf8 "" = []
    ∧ validUTF8 (utf8 "FILE") = true
    ∧ coerceUTF8 (utf8 "FILE") = utf8 "FILE" := by
  decide

/-! ## Child mutation: theorems -/

/-- The loop of `RemoveChild` finds nothing and changes nothing when `child`
is not an element of the slice. -/
theorem removeLoop_absent (h : Heap) (child : Ptr) :
    ∀ (l : List Ptr) (i : Nat), child ∉ l → removeLoop h child l i = .ok (h, false) := by
  intro l
  induction l with
  | nil => intro i _; rfl
  | cons e rest ih =>
    intro i hmem
    have hne : e ≠ child := fun he => hmem (by simp [he])
    have hrest : child ∉ rest := fun hr => hmem (by simp [hr])
    simp [removeLoop, hne, ih (i + 1) hrest]

/-- The outcome of `AddChild` on two allocated nodes: the call returns, the
parent cell gets the child appended, the child cell gets the parent's client,
and no other cell changes. -/
theorem AddChild_ok (h : Heap) (p c : Nat) (pn cn : Node)
    (hp : h[p]? = some pn) (hc : h[c]? = some cn) :
    ∃ h1, AddChild h (some p) (some c) = .ok h1
      ∧ h1.length = h.length
      ∧ h1[p]? = some
          { pn with Nodes := pn.Nodes ++ [some c], NodesSpare := pn.NodesSpare.tail }
      ∧ h1[c]? = some
          (if c = p then
            { pn with Nodes := pn.Nodes ++ [some c], NodesSpare := pn.NodesSpare.tail }
           else { cn with client := pn.client })
      ∧ ∀ k, k ≠ p → k ≠ c → h1[k]? = h[k]? := by
  have hpl : p < h.length := (List.getElem?_eq_some.mp hp).1
  have hcl : c < h.length := (List.getElem?_eq_some.mp hc).1
  by_cases hcp : c = p
  · subst hcp
    have hpc : pn = cn := by rw [hp] at hc; exact Option.some.inj hc
    subst hpc
    refine ⟨h.set c
      { pn with Nodes := pn.Nodes ++ [some c], NodesSpare := pn.NodesSpare.tail },
      ?_, by simp, ?_, ?_, ?_⟩
    · simp [AddChild, hp, hcl, List.set_set]
    · simp [hcl]
    · simp [hcl]
    · intro k hk _
      simp [List.getElem?_set_ne (Ne.symm hk)]
  · refine ⟨(h.set p
        { pn with Nodes := pn.Nodes ++ [some c], NodesSpare := pn.NodesSpare.tail }).set c
        { cn with client := pn.client }, ?_, by simp, ?_, ?_, ?_⟩
    · have h1c : (h.set p
          { pn with Nodes := pn.Nodes ++ [some c], NodesSpare := pn.NodesSpare.tail })[c]?
          = some cn := by
        rw [List.getElem?_set_ne (Ne.symm hcp)]; exact hc
      simp [AddChild, hp, hc, hpl, h1c]
    · rw [List.getElem?_set_ne hcp]; simp [hpl]
    · simp [hcp, hcl]
    · intro k hkp hkc
      rw [List.getElem?_set_ne (Ne.symm hkc), List.getElem?_set_ne (Ne.symm hkp)]

/-- C1: on a parent with children `[A, B, C]`, `RemoveChild(p, B)` does not
delete `B` from `p.children`.  The body of the loop works on the slice of the
matched child: with childless children the call panics on the index `-1` (also
for children `[c, c]`), and when `B` has the children `[X, Y, Z]` the parent's
slice stays `[A, B, C]` while `B` loses its own child `Y`. -/
theorem RemoveChild_present_edits_child_slice :
    RemoveChild heapABC (some 0) (some 2) = .error Panic.indexOutOfRange
    ∧ RemoveChild heapTwice (some 0) (some 1) = .error Panic.indexOutOfRange
    ∧ RemoveChild heapDeep (some 0) (some 2) = .ok heapDeepAfter
    ∧ (deref heapDeepAfter (some 0)).map Node.Nodes = some [some 1, some 2, some 3]
    ∧ (deref heapDeepAfter (some 2)).map Node.Nodes = some [some 4, some 6] := by
  decide

/-- C2: when the node `c` does not occur in `p.children`, `RemoveChild(p, c)`
returns normally and the whole heap, `p.children` included, is unchanged. -/
theorem RemoveChild_absent_unchanged (h : Heap) (p c : Nat) (pn cn : Node)
    (hp : h[p]? = some pn) (hc : h[c]? = some cn) (habs : some c ∉ pn.Nodes) :
    RemoveChild h (some p) (some c) = .ok h := by
  simp [RemoveChild, deref, hp, hc, removeLoop_absent h (some c) pn.Nodes 0 habs]

/-- Witness of C2: removing `X` (cell 4), which is not among the children
`[A, B, C]` of the parent of `heapDeep`. -/
theorem RemoveChild_absent_unchanged_witness :
    heapDeep[0]? = some { leafNode "p" with Nodes := [some 1, some 2, some 3] }
    ∧ heapDeep[4]? = some (leafNode "X")
    ∧ some 4 ∉ [some 1, some 2, some 3]
    ∧ RemoveChild heapDeep (some 0) (some 4) = .ok heapDeep :=
  ⟨rfl, rfl, by decide, RemoveChild_absent_unchanged heapDeep 0 4
    { leafNode "p" with Nodes := [some 1, some 2, some 3] } (leafNode "X") rfl rfl
    (by decide)⟩

/-- C3: `AddChild(p, c)` returns normally and `p.children` becomes `L ++ [c]`:
`c` is the last entry, it occurs exactly once when it did not occur in `L`,
and a second `AddChild(p, c)` gives `L ++ [c, c]`. -/
theorem AddChild_appends_child (h : Heap) (p c : Nat) (pn cn : Node)
    (hp : h[p]? = some pn) (hc : h[c]? = some cn) :
    ∃ h1 h2 p1 p2, AddChild h (some p) (some c) = .ok h1
      ∧ h1[p]? = some p1 ∧ p1.Nodes = pn.Nodes ++ [some c]
      ∧ p1.Nodes.getLast? = some (some c)
      ∧ (some c ∉ pn.Nodes → p1.Nodes.count (some c) = 1)
      ∧ AddChild h1 (some p) (some c) = .ok h2
      ∧ h2[p]? = some p2 ∧ p2.Nodes = pn.Nodes ++ [some c, some c] := by
  obtain ⟨h1, e1, _, hp1, hc1, _⟩ := AddChild_ok h p c pn cn hp hc
  obtain ⟨h2, e2, _, hp2, _, _⟩ := AddChild_ok h1 p c _ _ hp1 hc1
  refine ⟨h1, h2, _, _, e1, hp1, rfl, by simp, ?_, e2, hp2, by simp⟩
  intro hnot
  simp [List.count_eq_zero_of_not_mem hnot]

/-- Witness of C3: adding `X` (cell 4), which is not among the children
`[A, B, C]` of the parent of `heapDeep`. -/
theorem AddChild_appends_child_witness :
    heapDeep[0]? = some { leafNode "p" with Nodes := [some 1, some 2, some 3] }
    ∧ heapDeep[4]? = some (leafNode "X")
    ∧ ∃ h1 h2 p1 p2, AddChild heapDeep (some 0) (some 4) = .ok h1
      ∧ h1[0]? = some p1 ∧ p1.Nodes = [some 1, some 2, some 3] ++ [some 4]
      ∧ p1.Nodes.getLast? = some (some 4)
      ∧ (some 4 ∉ [some 1, some 2, some 3] → p1.Nodes.count (some 4) = 1)
      ∧ AddChild h1 (some 0) (some 4) = .ok h2
      ∧ h2[0]? = some p2 ∧ p2.Nodes = [some 1, some 2, some 3] ++ [some 4, some 4] :=
  ⟨rfl, rfl, AddChild_appends_child heapDeep 0 4
    { leafNode "p" with Nodes := [some 1, some 2, some 3] } (leafNode "X") rfl rfl⟩

/-- C4: after `AddChild(p, c)` the client of `c` is the client of `p`,
whatever `c` held before, and the client of `p` is what it was. -/
theorem AddChild_propagates_client (h : Heap) (p c : Nat) (pn cn : Node)
    (hp : h[p]? = some pn) (hc : h[c]? = some cn) :
    ∃ h1 p1 c1, AddChild h (some p) (some c) = .ok h1
      ∧ h1[c]? = some c1 ∧ c1.client = pn.client
      ∧ h1[p]? = some p1 ∧ p1.client = pn.client := by
  obtain ⟨h1, e1, _, hp1, hc1, _⟩ := AddChild_ok h p c pn cn hp hc
  refine ⟨h1, _, _, e1, hc1, ?_, hp1, rfl⟩
  by_cases hcp : c = p <;> simp [hcp]

/-- Witness of C4: a parent holding client 7 adopts a child holding client 3. -/
theorem AddChild_propagates_client_witness :
    heapClients[0]? = some { leafNode "p" with client := some 7 }
    ∧ heapClients[1]? = some { leafNode "c" with client := some 3 }
    ∧ ∃ h1 p1 c1, AddChild heapClients (some 0) (some 1) = .ok h1
      ∧ h1[1]? = some c1 ∧ c1.client = some 7
      ∧ h1[0]? = some p1 ∧ p1.client = some 7 :=
  ⟨rfl, rfl, AddChild_propagates_client heapClients 0 1 { leafNode "p" with client := some 7 }
    { leafNode "c" with client := some 3 } rfl rfl⟩

/-- C10: `IsFile` holds exactly for the kind "FILE" and `IsFolder` exactly for
the kind "FOLDER"; they are never both true, and both are false for "ASSET",
for the empty kind and for other spellings such as "file" or "Folder". -/
theorem IsFile_IsFolder_classify (n : Node) :
    (n.IsFile = true ↔ n.Kind = utf8 "FILE")
    ∧ (n.IsFolder = true ↔ n.Kind = utf8 "FOLDER")
    ∧ ¬ (n.IsFile = true ∧ n.IsFolder = true)
    ∧ (¬ (n.Kind = utf8 "FILE" ∨ n.Kind = utf8 "FOLDER")
        ↔ (n.IsFile = false ∧ n.IsFolder = false))
    ∧ ({ n with Kind := utf8 "ASSET" }.IsFile = false
        ∧ { n with Kind := utf8 "ASSET" }.IsFolder = false)
    ∧ ({ n with Kind := utf8 "" }.IsFile = false ∧ { n with Kind := utf8 "" }.IsFolder = false)
    ∧ ({ n with Kind := utf8 "file" }.IsFile = false
        ∧ { n with Kind := utf8 "Folder" }.IsFolder = false) := by
  refine ⟨by simp [Node.IsFile], by simp [Node.IsFolder], ?_, ?_, ?_, ?_, ?_⟩
  · intro hboth
    have h1 : n.Kind = utf8 "FILE" := by simpa [Node.IsFile] using hboth.1
    have h2 : n.Kind = utf8 "FOLDER" := by simpa [Node.IsFolder] using hboth.2
    rw [h1] at h2
    exact absurd h2 (by decide)
  · simp [Node.IsFile, Node.IsFolder]
  · exact ⟨by simp [Node.IsFile]; decide, by simp [Node.IsFolder]; decide⟩
  · exact ⟨by simp [Node.IsFile]; decide, by simp [Node.IsFolder]; decide⟩
  · exact ⟨by simp [Node.IsFile]; decide, by simp [Node.IsFolder]; decide⟩

/-! ## Metadata merge: lemmas on the heap -/

theorem modifyAt_length (h : Heap) (a : Nat) (f : Node → Node) :
    (modifyAt h a f).length = h.length := by
  unfold modifyAt
  split <;> simp

theorem modifyAt_get (h : Heap) (a k : Nat) (f : Node → Node) :
    (modifyAt h a f)[k]? = if k = a then (h[k]?).map f else h[k]? := by
  unfold modifyAt
  by_cases hk : k = a
  · subst hk
    cases hx : h[k]? with
    | none => simp [hx]
    | some x =>
      have hl : k < h.length := (List.getElem?_eq_some.mp hx).1
      simp [hl]
  · simp only [hk, if_false]
    split
    · rfl
    · rw [List.getElem?_set_ne (Ne.symm hk)]

theorem modifyAt_get_ne (h : Heap) (a k : Nat) (f : Node → Node) (hk : k ≠ a) :
    (modifyAt h a f)[k]? = h[k]? := by
  rw [modifyAt_get, if_neg hk]

theorem modifyAt_get_self (h : Heap) (a : Nat) (f : Node → Node) (n : Node)
    (hn : h[a]? = some n) : (modifyAt h a f)[a]? = some (f n) := by
  rw [modifyAt_get, if_pos rfl, hn]; rfl

theorem decodeObject_null (h : Heap) (a : Nat) : decodeObject Wire.null h a = h := by
  simp [decodeObject]

theorem decodeObject_leaf (f : WireFields) (h : Heap) (a : Nat) :
    decodeObject (Wire.obj f []) h a = storeRoot f.root (modifyAt h a (applyFields f)) a := by
  simp [decodeObject]

theorem decodeObject_kids (f : WireFields) (w : Wire) (ws : List Wire) (h : Heap) (a : Nat) :
    decodeObject (Wire.obj f (w :: ws)) h a =
      storeRoot f.root
        (modifyAt (decodeArray (w :: ws) (modifyAt h a (applyFields f)) a 0) a
          (cutNodes (ws.length + 1))) a := by
  simp [decodeObject]

theorem decodeArray_nil (h : Heap) (a i : Nat) : decodeArray [] h a i = h := by
  simp [decodeArray]

theorem decodeArray_null (ws : List Wire) (h : Heap) (a i : Nat) :
    decodeArray (Wire.null :: ws) h a i =
      decodeArray ws (modifyAt (modifyAt h a (growNodes i)) a (setSlot i none)) a (i + 1) := by
  simp [decodeArray]

theorem decodeArray_follow (f : WireFields) (kids ws : List Wire) (h : Heap) (a i c : Nat)
    (hs : slotAt (modifyAt h a (growNodes i)) a i = some (some c)) :
    decodeArray (Wire.obj f kids :: ws) h a i =
      decodeArray ws (decodeObject (Wire.obj f kids) (modifyAt h a (growNodes i)) c) a (i + 1) := by
  simp [decodeArray, hs]

theorem decodeArray_alloc (f : WireFields) (kids ws : List Wire) (h : Heap) (a i : Nat)
    (hs : ∀ c, slotAt (modifyAt h a (growNodes i)) a i ≠ some (some c)) :
    decodeArray (Wire.obj f kids :: ws) h a i =
      decodeArray ws
        (decodeObject (Wire.obj f kids)
          (modifyAt (modifyAt h a (growNodes i) ++ [Node.zero]) a
            (setSlot i (some (modifyAt h a (growNodes i)).length)))
          (modifyAt h a (growNodes i)).length) a (i + 1) := by
  rw [decodeArray]
  split
  · next c hc => exact absurd hc (hs c)
  · rfl

theorem marshalList_nil (enc : Ptr → Option Wire) : marshalList enc [] = some [] := rfl

/-- What `json.Marshal` writes for an allocated node: an object with the keys
of `marshalFields`, and no `nodes` array when the node has no children. -/
theorem Marshal_some (h : Heap) (r : Nat) (rv : Node) (v : Wire)
    (hr : h[r]? = some rv) (hv : Marshal h (some r) = some v) :
    ∃ cp kids, marshalContent rv.ContentProperties = some cp
      ∧ v = Wire.obj (marshalFields rv cp) kids
      ∧ (rv.Nodes = [] → kids = []) := by
  have hl : r < h.length := (List.getElem?_eq_some.mp hr).1
  obtain ⟨m, hm⟩ : ∃ m, h.length = m + 1 := ⟨h.length - 1, by omega⟩
  simp only [Marshal, hr, hm, marshalNode] at hv
  split at hv
  · split at hv
    · exact absurd hv (by simp)
    · next cp hcp =>
      split at hv
      · exact absurd hv (by simp)
      · next kids hkids =>
        refine ⟨cp, kids, hcp, (Option.some.inj hv).symm, ?_⟩
        intro hnil
        rw [hnil, marshalList_nil] at hkids
        exact (Option.some.inj hkids).symm
  · exact absurd hv (by simp)

theorem KeepsClient.refl (h : Heap) : KeepsClient h h :=
  ⟨Nat.le_refl _, fun _ nk hk => ⟨nk, hk, rfl⟩⟩

theorem KeepsClient.chain {h h1 h2 : Heap} (a : KeepsClient h h1) (b : KeepsClient h1 h2) :
    KeepsClient h h2 := by
  refine ⟨Nat.le_trans a.1 b.1, fun k nk hk => ?_⟩
  obtain ⟨n1, hk1, e1⟩ := a.2 k nk hk
  obtain ⟨n2, hk2, e2⟩ := b.2 k n1 hk1
  exact ⟨n2, hk2, e2.trans e1⟩

theorem KeepsClient.ofModify (h : Heap) (a : Nat) (f : Node → Node)
    (hf : ∀ x, (f x).client = x.client) : KeepsClient h (modifyAt h a f) := by
  refine ⟨by rw [modifyAt_length], fun k nk hk => ?_⟩
  rw [modifyAt_get]
  by_cases hka : k = a
  · rw [if_pos hka, hk]
    exact ⟨f nk, rfl, hf nk⟩
  · rw [if_neg hka]
    exact ⟨nk, hk, rfl⟩

theorem KeepsClient.ofAppend (h : Heap) (x : Node) : KeepsClient h (h ++ [x]) := by
  refine ⟨by simp, fun k nk hk => ⟨nk, ?_, rfl⟩⟩
  have hl : k < h.length := (List.getElem?_eq_some.mp hk).1
  rw [List.getElem?_append_left hl]; exact hk

theorem KeepsClient.ofStoreRoot (r : Option Bool) (h : Heap) (a : Nat) :
    KeepsClient h (storeRoot r h a) := by
  cases r with
  | none => exact KeepsClient.refl h
  | some b => exact KeepsClient.ofModify h a _ (fun _ => rfl)

mutual
theorem decodeObject_keepsClient : ∀ (w : Wire) (h : Heap) (a : Nat),
    KeepsClient h (decodeObject w h a)
  | Wire.null, h, a => by rw [decodeObject_null]; exact KeepsClient.refl h
  | Wire.obj f [], h, a => by
    rw [decodeObject_leaf]
    exact (KeepsClient.ofModify h a (applyFields f) (fun _ => rfl)).chain
      (KeepsClient.ofStoreRoot f.root _ a)
  | Wire.obj f (w :: ws), h, a => by
    rw [decodeObject_kids]
    exact (((KeepsClient.ofModify h a (applyFields f) (fun _ => rfl)).chain
      (decodeArray_keepsClient (w :: ws) _ a 0)).chain
      (KeepsClient.ofModify _ a (cutNodes (ws.length + 1)) (fun _ => rfl))).chain
      (KeepsClient.ofStoreRoot f.root _ a)
theorem decodeArray_keepsClient : ∀ (ws : List Wire) (h : Heap) (a i : Nat),
    KeepsClient h (decodeArray ws h a i)
  | [], h, a, i => by rw [decodeArray_nil]; exact KeepsClient.refl h
  | Wire.null :: ws, h, a, i => by
    rw [decodeArray_null]
    exact ((KeepsClient.ofModify h a (growNodes i) (fun _ => rfl)).chain
      (KeepsClient.ofModify _ a (setSlot i none) (fun _ => rfl))).chain
      (decodeArray_keepsClient ws _ a (i + 1))
  | Wire.obj f kids :: ws, h, a, i => by
    by_cases hs : ∃ c, slotAt (modifyAt h a (growNodes i)) a i = some (some c)
    · obtain ⟨c, hc⟩ := hs
      rw [decodeArray_follow f kids ws h a i c hc]
      exact ((KeepsClient.ofModify h a (growNodes i) (fun _ => rfl)).chain
        (decodeObject_keepsClient (Wire.obj f kids) _ c)).chain
        (decodeArray_keepsClient ws _ a (i + 1))
    · rw [decodeArray_alloc f kids ws h a i (fun c hc => hs ⟨c, hc⟩)]
      exact ((((KeepsClient.ofModify h a (growNodes i) (fun _ => rfl)).chain
        (KeepsClient.ofAppend _ Node.zero)).chain
        (KeepsClient.ofModify _ a (setSlot i (some (modifyAt h a (growNodes i)).length))
          (fun _ => rfl))).chain
        (decodeObject_keepsClient (Wire.obj f kids) _ _)).chain
        (decodeArray_keepsClient ws _ a (i + 1))
end

theorem slotAt_mem (h : Heap) (a i : Nat) (p : Ptr) (hs : slotAt h a i = some p) :
    ∃ cell, h[a]? = some cell ∧ p ∈ cell.held := by
  unfold slotAt at hs
  split at hs
  · exact absurd hs (by simp)
  · next cell hcell =>
    exact ⟨cell, hcell, List.mem_append_left _ (List.getElem?_mem hs)⟩

theorem mem_growNodes (i : Nat) (x : Node) (c : Nat) (hc : some c ∈ (growNodes i x).held) :
    some c ∈ x.held := by
  simp only [Node.held, growNodes, List.mem_append, List.mem_replicate] at hc ⊢
  rcases hc with (hc | hc | ⟨_, hc⟩) | hc
  · exact Or.inl hc
  · exact Or.inr (List.mem_of_mem_take hc)
  · exact absurd hc (by simp)
  · exact Or.inr (List.mem_of_mem_drop hc)

theorem mem_setSlot (i : Nat) (p : Ptr) (x : Node) (c : Nat)
    (hc : some c ∈ (setSlot i p x).held) : some c ∈ x.held ∨ some c = p := by
  simp only [Node.held, setSlot, List.mem_append] at hc ⊢
  rcases hc with hc | hc
  · rcases List.mem_or_eq_of_mem_set hc with hm | hm
    · exact Or.inl (Or.inl hm)
    · exact Or.inr hm
  · exact Or.inl (Or.inr hc)

theorem mem_cutNodes (k : Nat) (x : Node) (c : Nat) (hc : some c ∈ (cutNodes k x).held) :
    some c ∈ x.held := by
  simp only [Node.held, cutNodes, List.mem_append] at hc ⊢
  rcases hc with hc | hc | hc
  · exact Or.inl (List.mem_of_mem_take hc)
  · exact Or.inl (List.mem_of_mem_drop hc)
  · exact Or.inr hc

theorem Closed.afterModify {S : Nat → Prop} {N0 n : Nat} {h : Heap} (hcl : Closed S N0 n h)
    (a : Nat) (f : Node → Node)
    (hf : ∀ x c, some c ∈ (f x).held → some c ∈ x.held ∨ Reachable S N0 c) :
    Closed S N0 n (modifyAt h a f) := by
  refine ⟨by rw [modifyAt_length]; exact hcl.1, fun k nk c hk hget hmem => ?_⟩
  rw [modifyAt_get] at hget
  by_cases hka : k = a
  · rw [if_pos hka] at hget
    cases hx : h[k]? with
    | none => rw [hx] at hget; exact absurd hget (by simp)
    | some x =>
      rw [hx] at hget
      have hfx : f x = nk := Option.some.inj hget
      rw [← hfx] at hmem
      rcases hf x c hmem with hm | hm
      · exact hcl.2 k x c hk hx hm
      · exact hm
  · rw [if_neg hka] at hget
    exact hcl.2 k nk c hk hget hmem

theorem Closed.afterAppend {S : Nat → Prop} {N0 n : Nat} {h : Heap} (hcl : Closed S N0 n h) :
    Closed S N0 n (h ++ [Node.zero]) := by
  refine ⟨by simp only [List.length_append]; exact Nat.le_trans hcl.1 (Nat.le_add_right _ _),
    fun k nk c hk hget hmem => ?_⟩
  by_cases hl : k < h.length
  · rw [List.getElem?_append_left hl] at hget
    exact hcl.2 k nk c hk hget hmem
  · rw [List.getElem?_append_right (Nat.le_of_not_lt hl)] at hget
    by_cases h0 : k - h.length = 0
    · rw [h0] at hget
      have hz : Node.zero = nk := by simpa using hget
      rw [← hz] at hmem
      exact absurd hmem (by simp [Node.zero, Node.held])
    · obtain ⟨m, hm⟩ : ∃ m, k - h.length = m + 1 := ⟨k - h.length - 1, by omega⟩
      rw [hm] at hget
      exact absurd hget (by simp)

theorem Framed.compose {S : Nat → Prop} {N0 n : Nat} {h h1 h2 : Heap}
    (a : Framed S N0 n h h1) (b : Framed S N0 n h1 h2) : Framed S N0 n h h2 := by
  intro hcl
  obtain ⟨c1, e1⟩ := a hcl
  obtain ⟨c2, e2⟩ := b c1
  exact ⟨c2, e2.trans e1⟩

theorem Framed.byModify (S : Nat → Prop) (N0 n : Nat) (h : Heap) (a : Nat) (f : Node → Node)
    (hne : n ≠ a)
    (hf : ∀ x c, some c ∈ (f x).held → some c ∈ x.held ∨ Reachable S N0 c) :
    Framed S N0 n h (modifyAt h a f) :=
  fun hcl => ⟨hcl.afterModify a f hf, modifyAt_get_ne h a n f hne⟩

theorem Framed.byAppend (S : Nat → Prop) (N0 n : Nat) (h : Heap) (hn : ¬ Reachable S N0 n) :
    Framed S N0 n h (h ++ [Node.zero]) := by
  intro hcl
  refine ⟨hcl.afterAppend, List.getElem?_append_left ?_⟩
  have h1 : ¬ N0 ≤ n := fun hle => hn (Or.inr hle)
  have h2 := hcl.1
  omega

theorem Framed.byStoreRoot (S : Nat → Prop) (N0 n : Nat) (r : Option Bool) (h : Heap) (a : Nat)
    (hne : n ≠ a) : Framed S N0 n h (storeRoot r h a) := by
  cases r with
  | none => exact fun hcl => ⟨hcl, rfl⟩
  | some b => exact Framed.byModify S N0 n h a (setRoot b) hne (fun _ _ hc => Or.inl hc)

theorem ne_of_reachable {S : Nat → Prop} {N0 n a : Nat} (hn : ¬ Reachable S N0 n)
    (ha : Reachable S N0 a) : n ≠ a :=
  fun e => hn (e ▸ ha)

mutual
theorem decodeObject_framed (S : Nat → Prop) (N0 n : Nat) (hn : ¬ Reachable S N0 n) :
    ∀ (w : Wire) (h : Heap) (a : Nat), Reachable S N0 a →
      Framed S N0 n h (decodeObject w h a)
  | Wire.null, h, a, _ => by rw [decodeObject_null]; exact fun hcl => ⟨hcl, rfl⟩
  | Wire.obj f [], h, a, ha => by
    rw [decodeObject_leaf]
    exact (Framed.byModify S N0 n h a (applyFields f) (ne_of_reachable hn ha)
      (fun _ _ hc => Or.inl hc)).compose
      (Framed.byStoreRoot S N0 n f.root _ a (ne_of_reachable hn ha))
  | Wire.obj f (w :: ws), h, a, ha => by
    rw [decodeObject_kids]
    exact (((Framed.byModify S N0 n h a (applyFields f) (ne_of_reachable hn ha)
      (fun _ _ hc => Or.inl hc)).compose
      (decodeArray_framed S N0 n hn (w :: ws) _ a 0 ha)).compose
      (Framed.byModify S N0 n _ a (cutNodes (ws.length + 1)) (ne_of_reachable hn ha)
        (fun x c hc => Or.inl (mem_cutNodes _ x c hc)))).compose
      (Framed.byStoreRoot S N0 n f.root _ a (ne_of_reachable hn ha))
theorem decodeArray_framed (S : Nat → Prop) (N0 n : Nat) (hn : ¬ Reachable S N0 n) :
    ∀ (ws : List Wire) (h : Heap) (a i : Nat), Reachable S N0 a →
      Framed S N0 n h (decodeArray ws h a i)
  | [], h, a, i, _ => by rw [decodeArray_nil]; exact fun hcl => ⟨hcl, rfl⟩
  | Wire.null :: ws, h, a, i, ha => by
    rw [decodeArray_null]
    refine ((Framed.byModify S N0 n h a (growNodes i) (ne_of_reachable hn ha)
      (fun x c hc => Or.inl (mem_growNodes i x c hc))).compose
      (Framed.byModify S N0 n _ a (setSlot i none) (ne_of_reachable hn ha) ?_)).compose
      (decodeArray_framed S N0 n hn ws _ a (i + 1) ha)
    intro x c hc
    rcases mem_setSlot i none x c hc with hm | hm
    · exact Or.inl hm
    · exact absurd hm (by simp)
  | Wire.obj f kids :: ws, h, a, i, ha => by
    have hgrow := Framed.byModify S N0 n h a (growNodes i) (ne_of_reachable hn ha)
      (fun x c hc => Or.inl (mem_growNodes i x c hc))
    by_cases hs : ∃ c, slotAt (modifyAt h a (growNodes i)) a i = some (some c)
    · obtain ⟨c, hc⟩ := hs
      rw [decodeArray_follow f kids ws h a i c hc]
      intro hcl
      obtain ⟨hcl1, e1⟩ := hgrow hcl
      obtain ⟨cell, hcell, hmem⟩ := slotAt_mem _ a i _ hc
      have hcr : Reachable S N0 c := hcl1.2 a cell c (Or.inl ha) hcell hmem
      obtain ⟨hcl2, e2⟩ := decodeObject_framed S N0 n hn (Wire.obj f kids) _ c hcr hcl1
      obtain ⟨hcl3, e3⟩ := decodeArray_framed S N0 n hn ws _ a (i + 1) ha hcl2
      exact ⟨hcl3, e3.trans (e2.trans e1)⟩
    · rw [decodeArray_alloc f kids ws h a i (fun c hc => hs ⟨c, hc⟩)]
      intro hcl
      obtain ⟨hcl1, e1⟩ := hgrow hcl
      have hcr : Reachable S N0 (modifyAt h a (growNodes i)).length := Or.inr hcl1.1
      have hstep : Framed S N0 n (modifyAt h a (growNodes i))
          (modifyAt (modifyAt h a (growNodes i) ++ [Node.zero]) a
            (setSlot i (some (modifyAt h a (growNodes i)).length))) := by
        refine (Framed.byAppend S N0 n _ hn).compose
          (Framed.byModify S N0 n _ a _ (ne_of_reachable hn ha) ?_)
        intro x c hc
        rcases mem_setSlot i _ x c hc with hm | hm
        · exact Or.inl hm
        · exact Or.inr ((Option.some.inj hm) ▸ hcr)
      obtain ⟨hcl2, e2⟩ := hstep hcl1
      obtain ⟨hcl3, e3⟩ := decodeObject_framed S N0 n hn (Wire.obj f kids) _ _ hcr hcl2
      obtain ⟨hcl4, e4⟩ := decodeArray_framed S N0 n hn ws _ a (i + 1) ha hcl3
      exact ⟨hcl4, e4.trans (e3.trans (e2.trans e1))⟩
end

theorem SameButNodes.through {x y z : Node} (a : SameButNodes x y) (b : SameButNodes y z) :
    SameButNodes x z :=
  Eq.trans a b

theorem SameButNodes.withRoot {x y : Node} (s : SameButNodes x y) (b : Bool) :
    SameButNodes { x with Root := x.Root || b } { y with Root := y.Root || b } := by
  cases x
  cases y
  simp only [SameButNodes, Node.mk.injEq] at s ⊢
  simp [s]

/-- Decoding the `nodes` array into the node `n` itself, none of whose
children reaches `n`: the cell `n` keeps every field but `Nodes`. -/
theorem decodeArray_top (S : Nat → Prop) (N0 n : Nat) (hn : ¬ Reachable S N0 n) :
    ∀ (ws : List Wire) (h : Heap) (i : Nat) (cell : Node),
      Closed S N0 n h → h[n]? = some cell →
      ∃ cell1, (decodeArray ws h n i)[n]? = some cell1 ∧ SameButNodes cell1 cell
        ∧ Closed S N0 n (decodeArray ws h n i) := by
  intro ws
  induction ws with
  | nil =>
    intro h i cell hcl hcell
    rw [decodeArray_nil]
    exact ⟨cell, hcell, rfl, hcl⟩
  | cons w ws ih =>
    intro h i cell hcl hcell
    have hcl1 : Closed S N0 n (modifyAt h n (growNodes i)) :=
      hcl.afterModify n (growNodes i) (fun x c hc => Or.inl (mem_growNodes i x c hc))
    have hcell1 : (modifyAt h n (growNodes i))[n]? = some (growNodes i cell) :=
      modifyAt_get_self h n _ cell hcell
    cases w with
    | null =>
      rw [decodeArray_null]
      have hcl2 : Closed S N0 n (modifyAt (modifyAt h n (growNodes i)) n (setSlot i none)) := by
        refine hcl1.afterModify n (setSlot i none) ?_
        intro x c hc
        rcases mem_setSlot i none x c hc with hm | hm
        · exact Or.inl hm
        · exact absurd hm (by simp)
      obtain ⟨cell1, e1, s1, c1⟩ := ih _ (i + 1) _ hcl2
        (modifyAt_get_self _ n (setSlot i none) _ hcell1)
      exact ⟨cell1, e1, s1.through rfl, c1⟩
    | obj f kids =>
      by_cases hs : ∃ c, slotAt (modifyAt h n (growNodes i)) n i = some (some c)
      · obtain ⟨c, hc⟩ := hs
        rw [decodeArray_follow f kids ws h n i c hc]
        obtain ⟨cellA, hcellA, hmem⟩ := slotAt_mem _ n i _ hc
        have hcr : Reachable S N0 c := hcl1.2 n cellA c (Or.inr rfl) hcellA hmem
        obtain ⟨hcl2, e2⟩ := decodeObject_framed S N0 n hn (Wire.obj f kids) _ c hcr hcl1
        obtain ⟨cell1, e1, s1, c1⟩ := ih _ (i + 1) _ hcl2 (e2.trans hcell1)
        exact ⟨cell1, e1, s1.through rfl, c1⟩
      · rw [decodeArray_alloc f kids ws h n i (fun c hc => hs ⟨c, hc⟩)]
        have hcr : Reachable S N0 (modifyAt h n (growNodes i)).length := Or.inr hcl1.1
        have hlt : n < (modifyAt h n (growNodes i)).length := by
          have h1 : ¬ N0 ≤ n := fun hle => hn (Or.inr hle)
          have h2 := hcl1.1
          omega
        have hcl2 : Closed S N0 n
            (modifyAt (modifyAt h n (growNodes i) ++ [Node.zero]) n
              (setSlot i (some (modifyAt h n (growNodes i)).length))) := by
          refine hcl1.afterAppend.afterModify n _ ?_
          intro x c hc
          rcases mem_setSlot i _ x c hc with hm | hm
          · exact Or.inl hm
          · exact Or.inr ((Option.some.inj hm) ▸ hcr)
        have hcell2 : (modifyAt (modifyAt h n (growNodes i) ++ [Node.zero]) n
              (setSlot i (some (modifyAt h n (growNodes i)).length)))[n]?
            = some (setSlot i (some (modifyAt h n (growNodes i)).length) (growNodes i cell)) := by
          apply modifyAt_get_self
          rw [List.getElem?_append_left hlt]
          exact hcell1
        obtain ⟨hcl3, e3⟩ := decodeObject_framed S N0 n hn (Wire.obj f kids) _ _ hcr hcl2
        obtain ⟨cell1, e1, s1, c1⟩ := ih _ (i + 1) _ hcl3 (e3.trans hcell2)
        exact ⟨cell1, e1, s1.through rfl, c1⟩

theorem storeRoot_get_self (b : Bool) (h : Heap) (a : Nat) (x : Node) (hx : h[a]? = some x) :
    (storeRoot (omitEmptyBool b) h a)[a]? = some { x with Root := x.Root || b } := by
  cases b with
  | false =>
    simp only [omitEmptyBool, storeRoot, Bool.or_false]
    exact hx
  | true =>
    simp only [omitEmptyBool, storeRoot, Bool.or_true, if_true]
    exact modifyAt_get_self h a _ x hx

/-- The closure used for a node that is not its own descendant: the set of
its descendants. -/
theorem closed_of_descendants (h : Heap) (n : Nat) :
    Closed (Descendant h n) h.length n h := by
  refine ⟨Nat.le_refl _, fun k nk c hk hget hmem => Or.inl ?_⟩
  rcases hk with (hk | hk) | hk
  · exact Descendant.step k nk c hk hget hmem
  · have hl : k < h.length := (List.getElem?_eq_some.mp hget).1
    omega
  · subst hk
    exact Descendant.child nk c hget hmem

/-- A successful `update` of an allocated node encoded the record, found the
text within the nesting the decoder accepts, and decoded it into the node. -/
theorem update_ok_decode (h : Heap) (n : Nat) (r : Ptr) (nv : Node) (hn : h[n]? = some nv)
    (hok : (update h (some n) r).2 = none) :
    ∃ v, Marshal h r = some v ∧ v.depth ≤ maxNestingDepth
      ∧ (update h (some n) r).1 = decodeObject v h n := by
  cases hm : Marshal h r with
  | none => simp [update, hm] at hok
  | some v =>
    by_cases hd : maxNestingDepth < v.depth
    · simp [update, hm, Unmarshal, hd] at hok
    · exact ⟨v, rfl, Nat.le_of_not_lt hd, by simp [update, hm, Unmarshal, hn, hd]⟩

/-- The effect of a successful `update` on the receiver `n`, when the new
record has no children or `n` is not its own descendant: every field but
`Nodes` is the one decoded from the record's keys, `Root` is set when the
record's `Root` is set, and `Nodes` is untouched when the record has no
children. -/
theorem update_merged (h : Heap) (n r : Nat) (nv rv : Node)
    (hn : h[n]? = some nv) (hr : h[r]? = some rv)
    (hok : (update h (some n) (some r)).2 = none)
    (hacyc : rv.Nodes = [] ∨ ¬ Descendant h n n) :
    ∃ cp nv1, marshalContent rv.ContentProperties = some cp
      ∧ (update h (some n) (some r)).1[n]? = some nv1
      ∧ SameButNodes nv1
          { applyFields (marshalFields rv cp) nv with Root := nv.Root || rv.Root }
      ∧ (rv.Nodes = [] → nv1.Nodes = nv.Nodes ∧ nv1.NodesSpare = nv.NodesSpare) := by
  obtain ⟨v, hm, _, hupd⟩ := update_ok_decode h n (some r) nv hn hok
  have hv0 := hm
  cases hm1 : Marshal h (some r) with
  | none => rw [hm1] at hm; exact absurd hm (by simp)
  | some v1 =>
    rw [hm1] at hm
    have hvv : v1 = v := Option.some.inj hm
    subst hvv
    obtain ⟨cp, kids, hcp, hv, hkids⟩ := Marshal_some h r rv v1 hr hm1
    rw [hupd, hv]
    have hcell : (modifyAt h n (applyFields (marshalFields rv cp)))[n]?
        = some (applyFields (marshalFields rv cp) nv) := modifyAt_get_self h n _ nv hn
    cases kids with
    | nil =>
      rw [decodeObject_leaf]
      refine ⟨cp, _, hcp, storeRoot_get_self rv.Root _ n _ hcell, rfl, fun _ => ⟨rfl, rfl⟩⟩
    | cons w ws =>
      have hne : rv.Nodes ≠ [] := fun e => absurd (hkids e) (by simp)
      have hnd : ¬ Descendant h n n := hacyc.resolve_left hne
      have hlt : n < h.length := (List.getElem?_eq_some.mp hn).1
      have hnr : ¬ Reachable (Descendant h n) h.length n := by
        intro hre
        rcases hre with hre | hre
        · exact hnd hre
        · omega
      have hcl1 : Closed (Descendant h n) h.length n
          (modifyAt h n (applyFields (marshalFields rv cp))) :=
        (closed_of_descendants h n).afterModify n _ (fun _ _ hc => Or.inl hc)
      obtain ⟨cell1, e1, s1, _⟩ := decodeArray_top (Descendant h n) h.length n hnr
        (w :: ws) _ 0 _ hcl1 hcell
      rw [decodeObject_kids]
      have e2 := modifyAt_get_self _ n (cutNodes (ws.length + 1)) cell1 e1
      refine ⟨cp, _, hcp,
        storeRoot_get_self rv.Root _ n _ e2, ?_, fun e => absurd e hne⟩
      have s2 : SameButNodes (cutNodes (ws.length + 1) cell1)
          (applyFields (marshalFields rv cp) nv) := SameButNodes.through rfl s1
      exact s2.withRoot rv.Root

/-! ## Metadata merge: a record nested too deep -/

theorem chainHeap_length (k : Nat) : (chainHeap k).length = k + 1 := by
  simp [chainHeap]

theorem chainHeap_get (k i : Nat) (hi : i < k) : (chainHeap k)[i]? = some (chainCell k i) := by
  unfold chainHeap
  rw [List.getElem?_append_left (by simpa using hi)]
  simp [hi]

theorem chainHeap_last (k : Nat) : (chainHeap k)[k]? = some (leafNode "n") := by
  unfold chainHeap
  rw [List.getElem?_append_right (by simp)]
  simp

/-- Encoding the chain from its cell `i` on gives the nested value
`chainWire`. -/
theorem marshalNode_chain (k : Nat) : ∀ (j fuel i : Nat), i + j + 1 = k → j < fuel →
    marshalNode fuel (chainHeap k) (chainCell k i) = some (chainWire j) := by
  intro j
  induction j with
  | zero =>
    intro fuel i hk hf
    obtain ⟨f, hf1⟩ : ∃ f, fuel = f + 1 := ⟨fuel - 1, by omega⟩
    subst hf1
    have hlast : ¬ i + 1 < k := by omega
    simp [marshalNode, chainCell, hlast, marshalList, Time.encodable, Time.zero, Node.zero,
      marshalContent, ContentProps.zero, marshalFields, omitEmptyString, omitEmptyNat,
      omitEmptyList, omitEmptyBool, chainWire, zeroFields]
  | succ j ih =>
    intro fuel i hk hf
    obtain ⟨f, hf1⟩ : ∃ f, fuel = f + 1 := ⟨fuel - 1, by omega⟩
    subst hf1
    have hnext : i + 1 < k := by omega
    have hrec := ih f (i + 1) (by omega) (by omega)
    have hget := chainHeap_get k (i + 1) hnext
    have hnodes : (chainCell k i).Nodes = [some (i + 1)] := by simp [chainCell, hnext]
    have hfields : ∀ cp, marshalFields (chainCell k i) cp = marshalFields Node.zero cp :=
      fun _ => rfl
    simp only [marshalNode, hnodes, marshalList, hget, hrec]
    simp [chainCell, Time.encodable, Time.zero, Node.zero,
      marshalContent, ContentProps.zero, marshalFields, omitEmptyString, omitEmptyNat,
      omitEmptyList, omitEmptyBool, chainWire, zeroFields]

theorem chainWire_depth (j : Nat) : (chainWire j).depth = 2 * (j + 1) := by
  induction j with
  | zero => simp [chainWire, Wire.depth, WireFields.depth, zeroFields]
  | succ j ih =>
    simp only [chainWire, Wire.depth, Wire.depthList, ih]
    simp [WireFields.depth, zeroFields]
    omega

/-- The encoding of a chain of `k` nodes. -/
theorem Marshal_chain (k : Nat) (hk : 0 < k) :
    Marshal (chainHeap k) (some 0) = some (chainWire (k - 1)) := by
  simp only [Marshal, chainHeap_get k 0 hk, chainHeap_length]
  exact marshalNode_chain k (k - 1) (k + 1) 0 (by omega) (by omega)

/-- What `update` does with a chain of `k` nodes as the record: the text is
nested `2 * k` deep. -/
theorem update_chain (k : Nat) (hk : 0 < k) :
    update (chainHeap k) (some k) (some 0)
      = (if maxNestingDepth < 2 * k then (chainHeap k, some UpdateError.ErrJSONDecoding)
         else (decodeObject (chainWire (k - 1)) (chainHeap k) k, none)) := by
  have hdepth : (chainWire (k - 1)).depth = 2 * k := by
    rw [chainWire_depth]; omega
  have hun : Unmarshal (chainWire (k - 1)) (chainHeap k) (some k)
      = (if maxNestingDepth < 2 * k then (chainHeap k, true)
         else (decodeObject (chainWire (k - 1)) (chainHeap k) k, false)) := by
    unfold Unmarshal
    rw [hdepth]
    simp only [chainHeap_last]
  unfold update
  rw [Marshal_chain k hk]
  simp only [hun]
  by_cases hd : maxNestingDepth < 2 * k
  · simp only [hd, if_true]
  · simp only [hd, if_false]

/-- A record that is a chain of 5000 nodes is nested 10000 deep, which the
decoder accepts: `update` returns no error. -/
theorem update_chain_accepted : (update (chainHeap 5000) (some 5000) (some 0)).2 = none := by
  rw [update_chain 5000 (by decide), if_neg (by decide)]
/-! ## Metadata merge: theorems -/

/-- The descendants of cell 0 of `heapMergeKids`: only `X`. -/
theorem heapMergeKids_descendant (k : Nat) (hd : Descendant heapMergeKids 0 k) : k = 2 := by
  induction hd with
  | child nv c hget hmem =>
    have hnv : nv = mergeNode := by
      have : heapMergeKids[0]? = some mergeNode := rfl
      rw [this] at hget
      exact (Option.some.inj hget).symm
    subst hnv
    simpa [Node.held, mergeNode, Node.zero] using hmem
  | step b nb c _ hget hmem ih =>
    subst ih
    have hnb : nb = leafNode "X" := by
      have : heapMergeKids[2]? = some (leafNode "X") := rfl
      rw [this] at hget
      exact (Option.some.inj hget).symm
    subst hnb
    exact absurd hmem (by simp [leafNode, Node.zero, Node.held])

/-- The node of `heapStale` is reachable from itself, through the spare slot
of its own slice, although it is not among the elements of that slice. -/
theorem heapStale_descendant :
    Descendant heapStale 0 0 ∧ (heapStale[0]?).map Node.Nodes = some [some 2] :=
  ⟨Descendant.child
      { Node.zero with
          ID := utf8 "a", Name := utf8 "old.txt", Version := 5,
          Nodes := [some 2], NodesSpare := [some 0] }
      0 rfl (by decide), rfl⟩

/-- Counterexample to C5: a record with `root = true` sets the root flag of a
node whose flag was false; a record with one child gives a childless node a
(newly allocated) child; when the node is its own child, the root flag of
the record's child reaches the node although the record's own flag is false;
and the same happens when the node is only held in a spare slot of its own
slice, which the decoder brings back for the record's second child. -/
theorem update_changes_root_and_children :
    ((update heapRoot (some 0) (some 1)).2 = none
      ∧ (heapRoot[0]?).map Node.Root = some false
      ∧ ((update heapRoot (some 0) (some 1)).1[0]?).map Node.Root = some true)
    ∧ ((update heapKids (some 0) (some 1)).2 = none
      ∧ (heapKids[0]?).map Node.Nodes = some []
      ∧ ((update heapKids (some 0) (some 1)).1[0]?).map Node.Nodes = some [some 3])
    ∧ ((update heapSelfChild (some 0) (some 1)).2 = none
      ∧ (heapSelfChild[1]?).map Node.Root = some false
      ∧ (heapSelfChild[0]?).map Node.Root = some false
      ∧ ((update heapSelfChild (some 0) (some 1)).1[0]?).map Node.Root = some true)
    ∧ ((update heapStale (some 0) (some 1)).2 = none
      ∧ (heapStale[1]?).map Node.Root = some false
      ∧ (heapStale[0]?).map Node.Root = some false
      ∧ (heapStale[0]?).map Node.Nodes = some [some 2]
      ∧ ((update heapStale (some 0) (some 1)).1[0]?).map Node.Root = some true
      ∧ ((update heapStale (some 0) (some 1)).1[0]?).map Node.Nodes
          = some [some 2, some 0]) := by
  decide

/-- C5, amended: after a successful `update(n, r)` the client of `n` is what it
was; `n.Nodes` is what it was when `r` has no children; and `n.Root` is its
old value or-ed with `r.Root` (so unchanged when `r.Root` is false) when `r`
has no children or `n` is not reachable from itself through the pointers its
slices hold, spare slots included. -/
theorem update_keeps_local_state (h : Heap) (n r : Nat) (nv rv : Node)
    (hn : h[n]? = some nv) (hr : h[r]? = some rv)
    (hok : (update h (some n) (some r)).2 = none) :
    ∃ nv1, (update h (some n) (some r)).1[n]? = some nv1
      ∧ nv1.client = nv.client
      ∧ (rv.Nodes = [] → nv1.Nodes = nv.Nodes)
      ∧ (rv.Nodes = [] ∨ ¬ Descendant h n n → nv1.Root = (nv.Root || rv.Root)) := by
  obtain ⟨v, _, _, hdec⟩ := update_ok_decode h n (some r) nv hn hok
  obtain ⟨nv1, hget, hclient⟩ := (decodeObject_keepsClient v h n).2 n nv hn
  rw [← hdec] at hget
  refine ⟨nv1, hget, hclient, ?_, ?_⟩
  · intro hnil
    obtain ⟨_, nv2, _, hget2, _, hnodes⟩ := update_merged h n r nv rv hn hr hok (Or.inl hnil)
    rw [hget] at hget2
    rw [Option.some.inj hget2]
    exact (hnodes hnil).1
  · intro hacyc
    obtain ⟨_, nv2, _, hget2, hsame, _⟩ := update_merged h n r nv rv hn hr hok hacyc
    rw [hget] at hget2
    rw [Option.some.inj hget2]
    exact congrArg Node.Root hsame

/-- Witness of C5: the merge scenario, children `[X]` and `root = true`. -/
theorem update_keeps_local_state_witness :
    heapMerge[0]? = some mergeNode
    ∧ heapMerge[1]? = some mergeRecord
    ∧ (update heapMerge (some 0) (some 1)).2 = none
    ∧ ∃ nv1, (update heapMerge (some 0) (some 1)).1[0]? = some nv1
      ∧ nv1.client = some 7
      ∧ (([] : List Ptr) = [] → nv1.Nodes = [some 2])
      ∧ (([] : List Ptr) = [] ∨ ¬ Descendant heapMerge 0 0 → nv1.Root = (true || false)) :=
  ⟨rfl, rfl, by decide,
    update_keeps_local_state heapMerge 0 1 mergeNode mergeRecord rfl rfl (by decide)⟩

/-- Counterexample to C6: (1) the node is its own child and the record, with
the non-empty name "foo.txt", kind "FILE" and parents `["p1"]`, has a child
named "bar": the decoder follows the pointer in slot 0 of `n.Nodes`, which is
`n`, and decodes that child into `n`, so that afterwards the name, kind and
parents of `n` are those of the child, not those of the record; (2) the same
through a spare slot of `n.Nodes` that still holds `n`; (3) a record whose
name is the byte `0xFF` leaves the node with the name U+FFFD, not with the
record's name. -/
theorem update_self_child_overwritten :
    ((update heapSelfChild (some 0) (some 1)).2 = none
      ∧ (heapSelfChild[1]?).map Node.Name = some (utf8 "foo.txt")
      ∧ (heapSelfChild[1]?).map Node.Kind = some (utf8 "FILE")
      ∧ (heapSelfChild[1]?).map Node.Parents = some [utf8 "p1"]
      ∧ ((update heapSelfChild (some 0) (some 1)).1[0]?).map Node.Name = some (utf8 "bar")
      ∧ ((update heapSelfChild (some 0) (some 1)).1[0]?).map Node.Kind = some (utf8 "FOLDER")
      ∧ ((update heapSelfChild (some 0) (some 1)).1[0]?).map Node.Parents
          = some [utf8 "p2"])
    ∧ ((update heapStale (some 0) (some 1)).2 = none
      ∧ (heapStale[0]?).map Node.Nodes = some [some 2]
      ∧ (heapStale[1]?).map Node.Name = some (utf8 "foo.txt")
      ∧ ((update heapStale (some 0) (some 1)).1[0]?).map Node.Name = some (utf8 "bar")
      ∧ ((update heapStale (some 0) (some 1)).1[0]?).map Node.Kind = some (utf8 "FOLDER")
      ∧ ((update heapStale (some 0) (some 1)).1[0]?).map Node.Parents = some [utf8 "p2"])
    ∧ ((update heapBadBytes (some 0) (some 1)).2 = none
      ∧ (heapBadBytes[1]?).map Node.Name = some [0xFF]
      ∧ ((update heapBadBytes (some 0) (some 1)).1[0]?).map Node.Name
          = some [0xEF, 0xBF, 0xBD]) := by
  decide

/-- C6, amended: when the record has no children, or the node is not reachable
from itself through the pointers its slices hold (spare slots included), a
successful `update(n, r)` with non-empty `r.Name`, `r.Kind` and `r.Parents`
leaves in `n.Name`, `n.Kind` and `n.Parents` the record's values with every
ill-formed byte replaced by U+FFFD: the record's values themselves when they
are valid UTF-8.  `n.Parents` is replaced, not merged. -/
theorem update_overwrites_name_kind_parents (h : Heap) (n r : Nat) (nv rv : Node)
    (hn : h[n]? = some nv) (hr : h[r]? = some rv)
    (hok : (update h (some n) (some r)).2 = none)
    (hacyc : rv.Nodes = [] ∨ ¬ Descendant h n n)
    (hname : rv.Name ≠ []) (hkind : rv.Kind ≠ []) (hparents : rv.Parents ≠ []) :
    ∃ nv1, (update h (some n) (some r)).1[n]? = some nv1
      ∧ nv1.Name = coerceUTF8 rv.Name ∧ nv1.Kind = coerceUTF8 rv.Kind
      ∧ nv1.Parents = rv.Parents.map coerceUTF8
      ∧ (validUTF8 rv.Name = true → nv1.Name = rv.Name)
      ∧ (validUTF8 rv.Kind = true → nv1.Kind = rv.Kind)
      ∧ ((∀ p ∈ rv.Parents, validUTF8 p = true) → nv1.Parents = rv.Parents) := by
  obtain ⟨cp, nv1, _, hget, hsame, _⟩ := update_merged h n r nv rv hn hr hok hacyc
  have e1 : nv1.Name = coerceUTF8 rv.Name := by
    have e := congrArg Node.Name hsame
    simpa [applyFields, marshalFields, omitEmptyString, hname] using e
  have e2 : nv1.Kind = coerceUTF8 rv.Kind := by
    have e := congrArg Node.Kind hsame
    simpa [applyFields, marshalFields, omitEmptyString, hkind] using e
  have e3 : nv1.Parents = rv.Parents.map coerceUTF8 := by
    have e := congrArg Node.Parents hsame
    simpa [applyFields, marshalFields, omitEmptyList, hparents] using e
  refine ⟨nv1, hget, e1, e2, e3, ?_, ?_, ?_⟩
  · intro hv
    rw [e1, coerceUTF8_of_valid _ hv]
  · intro hv
    rw [e2, coerceUTF8_of_valid _ hv]
  · intro hv
    rw [e3]
    calc rv.Parents.map coerceUTF8 = rv.Parents.map id :=
          List.map_congr_left (fun p hp => coerceUTF8_of_valid p (hv p hp))
      _ = rv.Parents := List.map_id _

/-- Witness of C6: the record of `heapMergeKids` has a child of its own, and
the node is not its own descendant. -/
theorem update_overwrites_name_kind_parents_witness :
    heapMergeKids[0]? = some mergeNode
    ∧ heapMergeKids[1]? = some { mergeRecord with Nodes := [some 3] }
    ∧ (update heapMergeKids (some 0) (some 1)).2 = none
    ∧ ¬ Descendant heapMergeKids 0 0
    ∧ ∃ nv1, (update heapMergeKids (some 0) (some 1)).1[0]? = some nv1
      ∧ nv1.Name = coerceUTF8 (utf8 "foo.txt") ∧ nv1.Kind = coerceUTF8 (utf8 "FILE")
      ∧ nv1.Parents = [utf8 "p1"].map coerceUTF8
      ∧ (validUTF8 (utf8 "foo.txt") = true → nv1.Name = utf8 "foo.txt")
      ∧ (validUTF8 (utf8 "FILE") = true → nv1.Kind = utf8 "FILE")
      ∧ ((∀ p ∈ [utf8 "p1"], validUTF8 p = true) → nv1.Parents = [utf8 "p1"]) :=
  ⟨rfl, rfl, by decide, fun hd => absurd (heapMergeKids_descendant 0 hd) (by decide),
    update_overwrites_name_kind_parents heapMergeKids 0 1 mergeNode
      { mergeRecord with Nodes := [some 3] } rfl rfl (by decide)
      (Or.inr (fun hd => absurd (heapMergeKids_descendant 0 hd) (by decide)))
      (by decide) (by decide) (by decide)⟩

/-- The merge scenario evaluated: the record's name, kind and parents are
valid UTF-8 and are in the node after the merge, whose children and root flag
are what they were. -/
theorem update_merge_scenario :
    validUTF8 (utf8 "foo.txt") = true ∧ validUTF8 (utf8 "FILE") = true
    ∧ validUTF8 (utf8 "p1") = true
    ∧ (update heapMerge (some 0) (some 1)).2 = none
    ∧ ((update heapMerge (some 0) (some 1)).1[0]?).map Node.Name = some (utf8 "foo.txt")
    ∧ ((update heapMerge (some 0) (some 1)).1[0]?).map Node.Kind = some (utf8 "FILE")
    ∧ ((update heapMerge (some 0) (some 1)).1[0]?).map Node.Parents = some [utf8 "p1"]
    ∧ ((update heapMerge (some 0) (some 1)).1[0]?).map Node.Nodes = some [some 2]
    ∧ ((update heapMerge (some 0) (some 1)).1[0]?).map Node.Root = some true := by
  decide

/-- The decoding error of `update` is reached with a nil receiver:
`json.Unmarshal` rejects the nil target and the heap is as it was. -/
theorem update_nil_receiver :
    update heapMerge none (some 1) = (heapMerge, some UpdateError.ErrJSONDecoding) := by
  decide

/-- Counterexample to C8: a record with the id "b" replaces the id "a" of the
node; when the node is its own child, the id "x" of the record's child
replaces it although the record itself has no id; the same happens through a
spare slot of the node's slice that still holds the node; and a record id
that is not valid UTF-8, `0x61 0xC3`, is not copied as it is but leaves the
node with the id "a" followed by U+FFFD. -/
theorem update_overwrites_id :
    ((update heapIds (some 0) (some 1)).2 = none
      ∧ (heapIds[0]?).map Node.ID = some (utf8 "a")
      ∧ ((update heapIds (some 0) (some 1)).1[0]?).map Node.ID = some (utf8 "b"))
    ∧ ((update heapSelfChild (some 0) (some 1)).2 = none
      ∧ (heapSelfChild[1]?).map Node.ID = some []
      ∧ (heapSelfChild[0]?).map Node.ID = some (utf8 "a")
      ∧ ((update heapSelfChild (some 0) (some 1)).1[0]?).map Node.ID = some (utf8 "x"))
    ∧ ((update heapStale (some 0) (some 1)).2 = none
      ∧ (heapStale[1]?).map Node.ID = some []
      ∧ (heapStale[0]?).map Node.ID = some (utf8 "a")
      ∧ (heapStale[0]?).map Node.Nodes = some [some 2]
      ∧ ((update heapStale (some 0) (some 1)).1[0]?).map Node.ID = some (utf8 "m"))
    ∧ ((update heapBadBytes (some 0) (some 1)).2 = none
      ∧ (heapBadBytes[1]?).map Node.ID = some [0x61, 0xC3]
      ∧ ((update heapBadBytes (some 0) (some 1)).1[0]?).map Node.ID
          = some [0x61, 0xEF, 0xBF, 0xBD]) := by
  decide

/-- C8, amended: when the record has no children, or the node is not reachable
from itself through the pointers its slices hold (spare slots included), a
successful `update(n, r)` leaves `n.ID` as it was if `r.ID` is empty and
otherwise makes it `r.ID` with every ill-formed byte replaced by U+FFFD, which
is `r.ID` itself when `r.ID` is valid UTF-8; so `n.ID` is unchanged exactly
for a record whose id is empty or is written as the node's id. -/
theorem update_id (h : Heap) (n r : Nat) (nv rv : Node)
    (hn : h[n]? = some nv) (hr : h[r]? = some rv)
    (hok : (update h (some n) (some r)).2 = none)
    (hacyc : rv.Nodes = [] ∨ ¬ Descendant h n n) :
    ∃ nv1, (update h (some n) (some r)).1[n]? = some nv1
      ∧ nv1.ID = (if rv.ID = [] then nv.ID else coerceUTF8 rv.ID)
      ∧ (nv1.ID = nv.ID ↔ (rv.ID = [] ∨ coerceUTF8 rv.ID = nv.ID))
      ∧ (rv.ID ≠ [] → validUTF8 rv.ID = true → nv1.ID = rv.ID) := by
  obtain ⟨cp, nv1, _, hget, hsame, _⟩ := update_merged h n r nv rv hn hr hok hacyc
  have e : nv1.ID = (if rv.ID = [] then nv.ID else coerceUTF8 rv.ID) := by
    have e0 := congrArg Node.ID hsame
    by_cases hid : rv.ID = []
    · simpa [applyFields, marshalFields, omitEmptyString, hid] using e0
    · simpa [applyFields, marshalFields, omitEmptyString, hid] using e0
  refine ⟨nv1, hget, e, ?_, ?_⟩
  · rw [e]
    by_cases hid : rv.ID = []
    · simp [hid]
    · simp [hid]
  · intro hid hv
    rw [e, if_neg hid, coerceUTF8_of_valid _ hv]

/-- Witness of C8: the merge scenario; the record has no id and the id "n1"
of the node stays. -/
theorem update_id_witness :
    heapMerge[0]? = some mergeNode
    ∧ heapMerge[1]? = some mergeRecord
    ∧ (update heapMerge (some 0) (some 1)).2 = none
    ∧ ∃ nv1, (update heapMerge (some 0) (some 1)).1[0]? = some nv1
      ∧ nv1.ID = (if mergeRecord.ID = [] then mergeNode.ID else coerceUTF8 mergeRecord.ID)
      ∧ (nv1.ID = mergeNode.ID
          ↔ (mergeRecord.ID = [] ∨ coerceUTF8 mergeRecord.ID = mergeNode.ID))
      ∧ (mergeRecord.ID ≠ [] → validUTF8 mergeRecord.ID = true → nv1.ID = mergeRecord.ID) :=
  ⟨rfl, rfl, by decide,
    update_id heapMerge 0 1 mergeNode mergeRecord rfl rfl (by decide) (Or.inl rfl)⟩

/-- C9: merging the all-default record `&Node{}` into a node with non-zero
timestamps succeeds and resets `CreationDate`, `ModifiedDate` and
`ContentProperties.ContentDate` to the zero time: the encoder writes the three
timestamps (and `contentProperties`) although they are tagged `omitempty`.
The empty strings, zero numbers and empty lists of the record are omitted and
leave the node's fields as they were. -/
theorem update_default_record_resets_dates :
    Marshal heapDates (some 1) = some (Wire.obj
      { id := none, name := none, kind := none, parents := none, status := none,
        labels := none, createdBy := none, creationDate := some Time.zero,
        modifiedDate := some Time.zero, version := none, tempLink := none,
        contentProperties := some
          { version := none, extension := none, size := none, md5 := none,
            contentType := none, contentDate := some Time.zero },
        root := none } [])
    ∧ (update heapDates (some 0) (some 1)).2 = none
    ∧ (update heapDates (some 0) (some 1)).1[0]? = some heapDatesMerged
    ∧ (heapDates[0]?).map Node.CreationDate = some ⟨2015, 100⟩
    ∧ (heapDatesMerged.CreationDate = Time.zero
        ∧ heapDatesMerged.ModifiedDate = Time.zero
        ∧ heapDatesMerged.ContentProperties.ContentDate = Time.zero)
    ∧ heapDates[0]? ≠ some heapDatesMerged := by
  refine ⟨rfl, by decide, by decide, by decide, ⟨rfl, rfl, rfl⟩, by decide⟩

/-! ## Availability and content retrieval: theorems -/

/-- C11: `Available` is true exactly when the status is "AVAILABLE"; it is
false for "TRASH" and for the empty status, and two nodes with the same status
give the same answer whatever their other fields are. -/
theorem Available_iff_status (n : Node) :
    (n.Available = true ↔ n.Status = utf8 "AVAILABLE")
    ∧ (n.Available = false ↔ n.Status ≠ utf8 "AVAILABLE")
    ∧ { n with Status := utf8 "TRASH" }.Available = false
    ∧ { n with Status := utf8 "" }.Available = false
    ∧ { n with Status := utf8 "available" }.Available = false
    ∧ ∀ m : Node, m.Status = n.Status → m.Available = n.Available := by
  refine ⟨by simp [Node.Available], by simp [Node.Available],
    by simp [Node.Available]; decide, by simp [Node.Available]; decide,
    by simp [Node.Available]; decide, ?_⟩
  intro m hm
  simp [Node.Available, hm]

/-- C12: on a node with a collaborator, `Download` returns
`ErrCreatingHTTPRequest` exactly when the request cannot be built and
`ErrDoingHTTPRequest` exactly when the request was built and `Do` failed, in
both cases with a nil stream; it returns no error exactly when both steps
succeed.  `Do` is not called when the request cannot be built, and it is
never called more than once. -/
theorem Download_errors (w : World) (h : Heap) (n k : Nat) (nv : Node)
    (hn : h[n]? = some nv) (hk : nv.client = some k) :
    ∃ out, Download w h (some n) = .ok out
      ∧ (out.err = some DownloadError.ErrCreatingHTTPRequest ↔
          NewRequest w (utf8 "GET")
            ((w.clients k).GetContentURL (utf8 "nodes/" ++ nv.ID ++ utf8 "/content"))
            = none)
      ∧ (out.err = some DownloadError.ErrDoingHTTPRequest ↔
          ∃ req, NewRequest w (utf8 "GET")
              ((w.clients k).GetContentURL (utf8 "nodes/" ++ nv.ID ++ utf8 "/content")) = some req
            ∧ (w.clients k).Do req = none)
      ∧ (out.err = none ↔
          ∃ req res, NewRequest w (utf8 "GET")
              ((w.clients k).GetContentURL (utf8 "nodes/" ++ nv.ID ++ utf8 "/content")) = some req
            ∧ (w.clients k).Do req = some res)
      ∧ (out.err ≠ none → out.body = none)
      ∧ (out.err = some DownloadError.ErrCreatingHTTPRequest →
          (out.calls.filter Call.isDo).length = 0)
      ∧ (out.calls.filter Call.isDo).length ≤ 1 := by
  cases hreq : NewRequest w (utf8 "GET")
      ((w.clients k).GetContentURL (utf8 "nodes/" ++ nv.ID ++ utf8 "/content")) with
  | none =>
    have hD : Download w h (some n) = .ok
        { heap := h, calls := [Call.GetContentURL (utf8 "nodes/" ++ nv.ID ++ utf8 "/content")],
          body := none, err := some DownloadError.ErrCreatingHTTPRequest } := by
      simp only [Download, deref, hn, hk, hreq]
    refine ⟨_, hD, ?_⟩
    simp [Call.isDo]
  | some req =>
    cases hdo : (w.clients k).Do req with
    | none =>
      have hD : Download w h (some n) = .ok
          { heap := h,
            calls := [Call.GetContentURL (utf8 "nodes/" ++ nv.ID ++ utf8 "/content"), Call.Do req],
            body := none, err := some DownloadError.ErrDoingHTTPRequest } := by
        simp only [Download, deref, hn, hk, hreq, hdo]
      refine ⟨_, hD, ?_⟩
      simp [Call.isDo, hdo]
    | some res =>
      have hD : Download w h (some n) = .ok
          { heap := h,
            calls := [Call.GetContentURL (utf8 "nodes/" ++ nv.ID ++ utf8 "/content"), Call.Do req],
            body := some res.Body, err := none } := by
        simp only [Download, deref, hn, hk, hreq, hdo]
      refine ⟨_, hD, ?_⟩
      simp [Call.isDo, hdo]

/-- Witness of C12: the node with the id "%" gives a URL that cannot be
parsed. -/
theorem Download_errors_witness :
    heapDownload[1]? = some { Node.zero with ID := utf8 "%", client := some 7 }
    ∧ ∃ out, Download cdnWorld heapDownload (some 1) = .ok out
      ∧ (out.err = some DownloadError.ErrCreatingHTTPRequest ↔
          NewRequest cdnWorld (utf8 "GET")
            ((cdnWorld.clients 7).GetContentURL (utf8 "nodes/" ++ utf8 "%" ++ utf8 "/content"))
            = none)
      ∧ (out.err = some DownloadError.ErrDoingHTTPRequest ↔
          ∃ req, NewRequest cdnWorld (utf8 "GET")
              ((cdnWorld.clients 7).GetContentURL (utf8 "nodes/" ++ utf8 "%" ++ utf8 "/content"))
              = some req
            ∧ (cdnWorld.clients 7).Do req = none)
      ∧ (out.err = none ↔
          ∃ req res, NewRequest cdnWorld (utf8 "GET")
              ((cdnWorld.clients 7).GetContentURL (utf8 "nodes/" ++ utf8 "%" ++ utf8 "/content"))
              = some req
            ∧ (cdnWorld.clients 7).Do req = some res)
      ∧ (out.err ≠ none → out.body = none)
      ∧ (out.err = some DownloadError.ErrCreatingHTTPRequest →
          (out.calls.filter Call.isDo).length = 0)
      ∧ (out.calls.filter Call.isDo).length ≤ 1 :=
  ⟨rfl, Download_errors cdnWorld heapDownload 1 7
    { Node.zero with ID := utf8 "%", client := some 7 } rfl rfl⟩

/-- The two failures of `Download`, evaluated: an unparsable URL gives
`ErrCreatingHTTPRequest` without any call of `Do`; a failing `Do` gives
`ErrDoingHTTPRequest` after one call. -/
theorem Download_failures_evaluated :
    Download cdnWorld heapDownload (some 1) = .ok
      { heap := heapDownload, calls := [Call.GetContentURL (utf8 "nodes/%/content")],
        body := none, err := some DownloadError.ErrCreatingHTTPRequest }
    ∧ Download cdnWorld heapDownload (some 2) = .ok
      { heap := heapDownload,
        calls := [Call.GetContentURL (utf8 "nodes/down/content"),
          Call.Do { Method := utf8 "GET", URL := utf8 "https://cdn/nodes/down/content" }],
        body := none, err := some DownloadError.ErrDoingHTTPRequest } := by
  decide

/-- C16: when the request can be built and `Do` returns a response,
`Download` returns the body of that response and no error, whatever the status
code of the response and the kind and status of the node.  The request is a
GET of the URL the collaborator gives for "nodes/<id>/content"; the only calls
made are `GetContentURL` and one `Do` (no `CheckResponse`), and the heap is
unchanged. -/
theorem Download_returns_body (w : World) (h : Heap) (n k : Nat) (nv : Node)
    (req : Request) (res : Response)
    (hn : h[n]? = some nv) (hk : nv.client = some k)
    (hreq : NewRequest w (utf8 "GET")
      ((w.clients k).GetContentURL (utf8 "nodes/" ++ nv.ID ++ utf8 "/content")) = some req)
    (hdo : (w.clients k).Do req = some res) :
    Download w h (some n) = .ok
      { heap := h,
        calls := [Call.GetContentURL (utf8 "nodes/" ++ nv.ID ++ utf8 "/content"), Call.Do req],
        body := some res.Body, err := none }
    ∧ req = { Method := utf8 "GET",
              URL := (w.clients k).GetContentURL (utf8 "nodes/" ++ nv.ID ++ utf8 "/content") } := by
  refine ⟨by simp only [Download, deref, hn, hk, hreq, hdo], ?_⟩
  unfold NewRequest at hreq
  split at hreq
  · exact (Option.some.inj hreq).symm
  · exact absurd hreq (by simp)

/-- Witness of C16: a folder in the trash, answered with the status 404; the
body of the answer is returned all the same. -/
theorem Download_returns_body_witness :
    heapDownload[0]? = some { Node.zero with
        ID := utf8 "f1", Kind := utf8 "FOLDER", Status := utf8 "TRASH", client := some 7 }
    ∧ NewRequest cdnWorld (utf8 "GET")
        ((cdnWorld.clients 7).GetContentURL (utf8 "nodes/" ++ utf8 "f1" ++ utf8 "/content"))
        = some { Method := utf8 "GET", URL := utf8 "https://cdn/nodes/f1/content" }
    ∧ (cdnWorld.clients 7).Do { Method := utf8 "GET", URL := utf8 "https://cdn/nodes/f1/content" }
        = some { StatusCode := 404, Body := [104, 105] }
    ∧ Download cdnWorld heapDownload (some 0) = .ok
        { heap := heapDownload,
          calls := [Call.GetContentURL (utf8 "nodes/" ++ utf8 "f1" ++ utf8 "/content"),
            Call.Do { Method := utf8 "GET", URL := utf8 "https://cdn/nodes/f1/content" }],
          body := some [104, 105], err := none }
    ∧ ({ Method := utf8 "GET", URL := utf8 "https://cdn/nodes/f1/content" } : Request)
        = { Method := utf8 "GET",
            URL := (cdnWorld.clients 7).GetContentURL
              (utf8 "nodes/" ++ utf8 "f1" ++ utf8 "/content") } :=
  ⟨rfl, by decide, by decide, Download_returns_body cdnWorld heapDownload 0 7
    { Node.zero with
        ID := utf8 "f1", Kind := utf8 "FOLDER", Status := utf8 "TRASH", client := some 7 }
    { Method := utf8 "GET", URL := utf8 "https://cdn/nodes/f1/content" }
    { StatusCode := 404, Body := [104, 105] } rfl rfl (by decide) (by decide)⟩

/-! ## Child mutation: further theorems -/

/-- The loop of `RemoveChild` at the first occurrence of an allocated child:
the body runs on the child's own slice, with the index of the occurrence. -/
theorem removeLoop_present (h : Heap) (c : Nat) (cn : Node) (hc : h[c]? = some cn) :
    ∀ (pre post : List Ptr) (i : Nat), some c ∉ pre →
      removeLoop h (some c) (pre ++ some c :: post) i =
        match removeAt cn.Nodes (i + pre.length) with
        | .error p => .error p
        | .ok s => .ok (h.set c { cn with Nodes := s, NodesSpare := none :: cn.NodesSpare },
            true) := by
  intro pre
  induction pre with
  | nil =>
    intro post i _
    simp [removeLoop, hc]
  | cons e rest ih =>
    intro post i hmem
    have hne : e ≠ some c := fun he => hmem (by simp [he])
    have hrest : some c ∉ rest := fun hr => hmem (by simp [hr])
    have hlen : i + 1 + rest.length = i + (rest.length + 1) := by omega
    have hstep : removeLoop h (some c) (e :: (rest ++ some c :: post)) i
        = removeLoop h (some c) (rest ++ some c :: post) (i + 1) := by
      simp [removeLoop, hne]
    rw [List.cons_append, hstep, ih post (i + 1) hrest, List.length_cons, hlen]

/-- The body of the loop on an empty slice: the index `-1` is out of range. -/
theorem removeAt_nil (i : Nat) : removeAt [] i = .error Panic.indexOutOfRange := by
  unfold removeAt
  split <;> simp [sliceCopy]

/-- Removing a present child that has no children of its own panics. -/
theorem RemoveChild_childless_panics (h : Heap) (p c : Nat) (pn cn : Node)
    (hp : h[p]? = some pn) (hc : h[c]? = some cn) (hmem : some c ∈ pn.Nodes)
    (hleaf : cn.Nodes = []) :
    RemoveChild h (some p) (some c) = .error Panic.indexOutOfRange := by
  obtain ⟨pre, post, hsplit, hpre⟩ : ∃ pre post, pn.Nodes = pre ++ some c :: post
      ∧ some c ∉ pre := by
    obtain ⟨pre, post, e, hnot⟩ := List.eq_append_cons_of_mem hmem
    exact ⟨pre, post, e, hnot⟩
  have hloop := removeLoop_present h c cn hc pre post 0 hpre
  rw [← hsplit] at hloop
  rw [hleaf, removeAt_nil] at hloop
  simp [RemoveChild, deref, hp, hloop]

/-- C13: `RemoveChild(p, B)` on a parent with children `[A, B, C]`, where `B`
has the children `[X, Y, Z]`, returns with `B`'s own children list cut to
`[X, Z]`, while the parent's list is what it was; and on a parent whose only
child has no children the call panics. -/
theorem RemoveChild_changes_child_children :
    (deref heapDeep (some 2)).map Node.Nodes = some [some 4, some 5, some 6]
    ∧ (deref heapDeep (some 0)).map Node.Nodes = some [some 1, some 2, some 3]
    ∧ (RemoveChild heapDeep (some 0) (some 2)).toOption.map
        (fun h1 => ((deref h1 (some 2)).map Node.Nodes, (deref h1 (some 0)).map Node.Nodes))
      = some (some [some 4, some 6], some [some 1, some 2, some 3])
    ∧ (RemoveChild heapOnly (some 0) (some 1)).toOption = none := by
  decide

/-- C14: a node `c` that is a different object from every entry of
`p.children` is not removed: `RemoveChild(p, c)` returns with the heap
unchanged, whatever the field values of `c` and of the entries are. -/
theorem RemoveChild_by_reference (h : Heap) (p c : Nat) (pn cn : Node)
    (hp : h[p]? = some pn) (hc : h[c]? = some cn)
    (hdistinct : ∀ e, some e ∈ pn.Nodes → e ≠ c) :
    RemoveChild h (some p) (some c) = .ok h
    ∧ (deref h (some p)).map Node.Nodes = some pn.Nodes := by
  have habs : some c ∉ pn.Nodes := fun hm => hdistinct c hm rfl
  refine ⟨?_, by simp [deref, hp]⟩
  simp [RemoveChild, deref, hp, hc, removeLoop_absent h (some c) pn.Nodes 0 habs]

/-- The only entry of the parent of `heapTwin` is cell 1, not cell 2. -/
theorem heapTwin_entries (e : Nat) (he : some e ∈ [some 1]) : e ≠ 2 := by
  have h1 : e = 1 := by simpa using he
  omega

/-- Witness of C14: cell 2 has the same id and field values as the only child,
cell 1, of the parent, and is a different object. -/
theorem RemoveChild_by_reference_witness :
    heapTwin[0]? = some { leafNode "p" with Nodes := [some 1] }
    ∧ heapTwin[2]? = heapTwin[1]?
    ∧ (∀ e, some e ∈ [some 1] → e ≠ 2)
    ∧ RemoveChild heapTwin (some 0) (some 2) = .ok heapTwin
    ∧ (deref heapTwin (some 0)).map Node.Nodes = some [some 1] :=
  ⟨rfl, rfl, heapTwin_entries, RemoveChild_by_reference heapTwin 0 2
    { leafNode "p" with Nodes := [some 1] }
    { Node.zero with ID := utf8 "f1", Name := utf8 "a.txt", Kind := utf8 "FILE" }
    rfl rfl heapTwin_entries⟩

/-- Counterexample to C15: a node added to itself.  The child is the parent,
so the child's own children list changes from `[]` to `[p]`. -/
theorem AddChild_self_changes_child_children :
    (deref heapSolo (some 0)).map Node.Nodes = some []
    ∧ (AddChild heapSolo (some 0) (some 0)).toOption.map
        (fun h1 => (deref h1 (some 0)).map Node.Nodes) = some (some [some 0]) := by
  decide

/-- C15, amended: `AddChild(p, c)` appends `c` to `p.Nodes` and changes no other
field of `p`; it sets `c.client` and changes no metadata field of `c`; the
children list of `c` is unchanged when `c` is not `p` itself; no other node
changes. -/
theorem AddChild_frame (h : Heap) (p c : Nat) (pn cn : Node)
    (hp : h[p]? = some pn) (hc : h[c]? = some cn) :
    ∃ h1 p1 c1, AddChild h (some p) (some c) = .ok h1
      ∧ h1[p]? = some p1 ∧ h1[c]? = some c1
      ∧ p1 = { pn with Nodes := pn.Nodes ++ [some c], NodesSpare := pn.NodesSpare.tail }
      ∧ { c1 with Nodes := [], NodesSpare := [], client := none }
          = { cn with Nodes := [], NodesSpare := [], client := none }
      ∧ c1.client = pn.client
      ∧ (c ≠ p → c1.Nodes = cn.Nodes ∧ c1.NodesSpare = cn.NodesSpare)
      ∧ h1.length = h.length
      ∧ ∀ k, k ≠ p → k ≠ c → h1[k]? = h[k]? := by
  obtain ⟨h1, e1, hlen, hp1, hc1, hrest⟩ := AddChild_ok h p c pn cn hp hc
  refine ⟨h1, _, _, e1, hp1, hc1, rfl, ?_, ?_, ?_, hlen, hrest⟩
  · by_cases hcp : c = p
    · subst hcp
      have : pn = cn := by rw [hp] at hc; exact Option.some.inj hc
      subst this
      simp
    · simp [hcp]
  · by_cases hcp : c = p <;> simp [hcp]
  · intro hcp
    simp [hcp]

/-- Witness of C15: the end-to-end scenario.  After the file "f1" is added to
the root folder, `root.children[0]` is available and has the size 42. -/
theorem AddChild_frame_witness :
    heapScenario[0]? = some { Node.zero with
        ID := utf8 "r", Kind := utf8 "FOLDER", Root := true, client := some 7 }
    ∧ (∃ h1 p1 c1, AddChild heapScenario (some 0) (some 1) = .ok h1
      ∧ h1[0]? = some p1 ∧ h1[1]? = some c1
      ∧ p1 = { Node.zero with
          ID := utf8 "r", Kind := utf8 "FOLDER", Root := true, client := some 7,
          Nodes := [] ++ [some 1], NodesSpare := [].tail }
      ∧ { c1 with Nodes := [], NodesSpare := [], client := none } =
          { Node.zero with
              ID := utf8 "f1", Kind := utf8 "FILE", Status := utf8 "AVAILABLE",
              ContentProperties := { ContentProps.zero with Size := 42 } }
      ∧ c1.client = some 7
      ∧ (1 ≠ 0 → c1.Nodes = [] ∧ c1.NodesSpare = [])
      ∧ h1.length = 2
      ∧ ∀ k, k ≠ 0 → k ≠ 1 → h1[k]? = heapScenario[k]?)
    ∧ (AddChild heapScenario (some 0) (some 1)).toOption.map
        (fun h1 => ((deref h1 (some 0)).bind (fun r => r.Nodes[0]?)).map
          (fun c => (deref h1 c).map (fun f => (f.Available, f.ContentProperties.Size))))
      = some (some (some (true, 42))) :=
  ⟨rfl, AddChild_frame heapScenario 0 1
    { Node.zero with ID := utf8 "r", Kind := utf8 "FOLDER", Root := true, client := some 7 }
    { Node.zero with
        ID := utf8 "f1", Kind := utf8 "FILE", Status := utf8 "AVAILABLE",
        ContentProperties := { ContentProps.zero with Size := 42 } } rfl rfl, by decide⟩

/-- C18: `RemoveChild` does not always complete.  On parents whose entries
are all non-nil and hold no children of their own, removing a present child
evaluates `n.Nodes[len(n.Nodes)-1]` on the child's empty slice and panics with
an index out of range: for the only child of a parent, and for each of the
children `A`, `B`, `C` of a parent. -/
theorem RemoveChild_panics_on_leaf_child :
    RemoveChild heapOnly (some 0) (some 1) = .error Panic.indexOutOfRange
    ∧ RemoveChild heapABC (some 0) (some 1) = .error Panic.indexOutOfRange
    ∧ RemoveChild heapABC (some 0) (some 2) = .error Panic.indexOutOfRange
    ∧ RemoveChild heapABC (some 0) (some 3) = .error Panic.indexOutOfRange := by
  decide

/-! ## Metadata merge: version and idempotence -/

/-- Counterexample to C17: a record with version 3 lowers the version 5 of the
node to 3; when the node is its own child, the version 2 of the record's
child reaches the node although the record has version 7; and the same
happens through a spare slot of the node's slice that still holds the node. -/
theorem update_lowers_version :
    ((update heapVersions (some 0) (some 1)).2 = none
      ∧ (heapVersions[0]?).map Node.Version = some 5
      ∧ ((update heapVersions (some 0) (some 1)).1[0]?).map Node.Version = some 3)
    ∧ ((update heapSelfChildVersion (some 0) (some 1)).2 = none
      ∧ (heapSelfChildVersion[0]?).map Node.Version = some 5
      ∧ (heapSelfChildVersion[1]?).map Node.Version = some 7
      ∧ ((update heapSelfChildVersion (some 0) (some 1)).1[0]?).map Node.Version = some 2)
    ∧ ((update heapStale (some 0) (some 1)).2 = none
      ∧ (heapStale[0]?).map Node.Version = some 5
      ∧ (heapStale[0]?).map Node.Nodes = some [some 2]
      ∧ (heapStale[1]?).map Node.Version = some 7
      ∧ ((update heapStale (some 0) (some 1)).1[0]?).map Node.Version = some 2) := by
  decide

/-- C17, amended: when the record has no children, or the node is not reachable
from itself through the pointers its slices hold (spare slots included), a
successful `update(n, r)` leaves `n.Version` as it was if `r.Version` is 0 and
makes it `r.Version` otherwise; so the version does not decrease exactly when
`r.Version` is 0 or at least the old `n.Version`. -/
theorem update_version (h : Heap) (n r : Nat) (nv rv : Node)
    (hn : h[n]? = some nv) (hr : h[r]? = some rv)
    (hok : (update h (some n) (some r)).2 = none)
    (hacyc : rv.Nodes = [] ∨ ¬ Descendant h n n) :
    ∃ nv1, (update h (some n) (some r)).1[n]? = some nv1
      ∧ nv1.Version = (if rv.Version = 0 then nv.Version else rv.Version)
      ∧ (nv.Version ≤ nv1.Version ↔ (rv.Version = 0 ∨ nv.Version ≤ rv.Version)) := by
  obtain ⟨cp, nv1, _, hget, hsame, _⟩ := update_merged h n r nv rv hn hr hok hacyc
  have e : nv1.Version = (if rv.Version = 0 then nv.Version else rv.Version) := by
    have e0 := congrArg Node.Version hsame
    by_cases hz : rv.Version = 0
    · simpa [applyFields, marshalFields, omitEmptyNat, hz] using e0
    · simpa [applyFields, marshalFields, omitEmptyNat, hz] using e0
  refine ⟨nv1, hget, e, ?_⟩
  rw [e]
  by_cases hz : rv.Version = 0
  · simp [hz]
  · simp [hz]

/-- Witness of C17: the record of `heapMergeKids` has a child of its own and
the version 0, the node is not reachable from itself, and the version 5 of the
node stays. -/
theorem update_version_witness :
    heapMergeKids[0]? = some mergeNode
    ∧ heapMergeKids[1]? = some { mergeRecord with Nodes := [some 3] }
    ∧ (update heapMergeKids (some 0) (some 1)).2 = none
    ∧ ¬ Descendant heapMergeKids 0 0
    ∧ ∃ nv1, (update heapMergeKids (some 0) (some 1)).1[0]? = some nv1
      ∧ nv1.Version = (if 0 = 0 then 5 else 0)
      ∧ (5 ≤ nv1.Version ↔ (0 = 0 ∨ 5 ≤ 0)) :=
  ⟨rfl, rfl, by decide, fun hd => absurd (heapMergeKids_descendant 0 hd) (by decide),
    update_version heapMergeKids 0 1 mergeNode
      { mergeRecord with Nodes := [some 3] } rfl rfl (by decide)
      (Or.inr (fun hd => absurd (heapMergeKids_descendant 0 hd) (by decide)))⟩

theorem modifyAt_modifyAt (h : Heap) (a : Nat) (f g : Node → Node) :
    modifyAt (modifyAt h a f) a g = modifyAt h a (fun x => g (f x)) := by
  cases hx : h[a]? with
  | none =>
    have e1 : modifyAt h a f = h := by simp [modifyAt, hx]
    rw [e1]
    simp [modifyAt, hx]
  | some x =>
    have e1 : modifyAt h a f = h.set a (f x) := by simp [modifyAt, hx]
    have hl : a < h.length := (List.getElem?_eq_some.mp hx).1
    have e2 : (h.set a (f x))[a]? = some (f x) := by simp [hl]
    rw [e1]
    simp [modifyAt, hx, e2, List.set_set]

theorem modifyAt_congr (h : Heap) (a : Nat) (f g : Node → Node) (hfg : ∀ x, f x = g x) :
    modifyAt h a f = modifyAt h a g := by
  have : f = g := funext hfg
  rw [this]

/-- Decoding an object without a `nodes` array rewrites the target cell once. -/
theorem decodeObject_leaf_modify (f : WireFields) (b : Bool) (hb : f.root = omitEmptyBool b)
    (h : Heap) (a : Nat) :
    decodeObject (Wire.obj f []) h a
      = modifyAt h a (fun x => { applyFields f x with Root := x.Root || b }) := by
  rw [decodeObject_leaf, hb]
  cases b with
  | false =>
    simp only [omitEmptyBool, storeRoot, Bool.or_false]
    exact modifyAt_congr h a _ _ (fun _ => rfl)
  | true =>
    simp only [omitEmptyBool, storeRoot, Bool.or_true, if_true]
    rw [modifyAt_modifyAt]
    exact modifyAt_congr h a _ _ (fun _ => rfl)

/-- Encoding a node without children does not look at the heap. -/
theorem Marshal_leaf (h : Heap) (r : Nat) (rv : Node) (hr : h[r]? = some rv)
    (hnil : rv.Nodes = []) : Marshal h (some r) = marshalNode 1 [] rv := by
  have hl : r < h.length := (List.getElem?_eq_some.mp hr).1
  obtain ⟨m, hm⟩ : ∃ m, h.length = m + 1 := ⟨h.length - 1, by omega⟩
  simp [Marshal, hr, hm, marshalNode, hnil, marshalList]

theorem getD_getD_same {α : Type} (o : Option α) (a : α) : o.getD (o.getD a) = o.getD a := by
  cases o <;> rfl

/-- A string field written from the value that a first merge left gives the
value that the first merge left. -/
theorem omitEmptyString_again (s y : GoString) :
    (omitEmptyString ((omitEmptyString s).getD s)).getD ((omitEmptyString s).getD y)
      = (omitEmptyString s).getD y := by
  unfold omitEmptyString
  by_cases hs : s.length = 0
  · simp [hs]
  · by_cases hc : (coerceUTF8 s).length = 0
    · simp [hs, hc]
    · simp [hs, hc, coerceUTF8_coerceUTF8]

theorem omitEmptyList_again (l y : List GoString) :
    (omitEmptyList ((omitEmptyList l).getD l)).getD ((omitEmptyList l).getD y)
      = (omitEmptyList l).getD y := by
  unfold omitEmptyList
  by_cases hl : l.length = 0
  · simp [hl]
  · by_cases hc : (l.map coerceUTF8).length = 0
    · simp [hl, hc]
    · have hl1 : ¬ l = [] := fun e => hl (by simp [e])
      simp [hl, hl1, coerceUTF8_coerceUTF8]

theorem omitEmptyNat_again (k y : Nat) :
    (omitEmptyNat ((omitEmptyNat k).getD k)).getD ((omitEmptyNat k).getD y)
      = (omitEmptyNat k).getD y := by
  unfold omitEmptyNat
  by_cases hk : k = 0
  · simp [hk]
  · simp [hk]

/-- Decoding the same keys twice is the same as decoding them once. -/
theorem merge_twice (f : WireFields) (b : Bool) (x : Node) :
    { applyFields f { applyFields f x with Root := x.Root || b } with
        Root := (x.Root || b) || b }
      = { applyFields f x with Root := x.Root || b } := by
  cases hcp : f.contentProperties with
  | none => simp [applyFields, hcp, getD_getD_same]
  | some w => simp [applyFields, hcp, getD_getD_same, applyContent]

/-- A node merged into itself can be encoded again, and decoding that encoding
after the first one changes nothing more. -/
theorem merge_self_again (nv : Node) (cp : WireContent)
    (hd : (nv.CreationDate.encodable && nv.ModifiedDate.encodable) = true)
    (hcp : marshalContent nv.ContentProperties = some cp) (hnil : nv.Nodes = []) :
    ∃ cp1, marshalNode 1 []
        { applyFields (marshalFields nv cp) nv with Root := nv.Root || nv.Root }
        = some (Wire.obj (marshalFields
            { applyFields (marshalFields nv cp) nv with Root := nv.Root || nv.Root } cp1) [])
      ∧ ∀ y : Node,
        { applyFields (marshalFields
            { applyFields (marshalFields nv cp) nv with Root := nv.Root || nv.Root } cp1)
            { applyFields (marshalFields nv cp) y with Root := y.Root || nv.Root } with
          Root := (y.Root || nv.Root) || (nv.Root || nv.Root) }
        = { applyFields (marshalFields nv cp) y with Root := y.Root || nv.Root } := by
  unfold marshalContent at hcp
  split at hcp
  · next hdate =>
    have hcp1 := (Option.some.inj hcp).symm
    subst hcp1
    cases nv with
    | mk ID Name Kind Parents Status Labels CreatedBy CreationDate ModifiedDate Version TempLink
        ContentProperties Nodes NodesSpare Root client =>
      cases ContentProperties with
      | mk cV cE cS cM cT cD =>
        simp only at hnil hd hdate
        subst hnil
        refine ⟨{ version := omitEmptyNat ((omitEmptyNat cV).getD cV),
                  extension := omitEmptyString ((omitEmptyString cE).getD cE),
                  size := omitEmptyNat ((omitEmptyNat cS).getD cS),
                  md5 := omitEmptyString ((omitEmptyString cM).getD cM),
                  contentType := omitEmptyString ((omitEmptyString cT).getD cT),
                  contentDate := some cD }, ?_, ?_⟩
        · simp only [marshalNode, applyFields, marshalFields, applyContent, Option.getD_some,
            hd, marshalContent, hdate, if_true, marshalList]
        · intro y
          simp [applyFields, marshalFields, applyContent, omitEmptyString_again,
            omitEmptyList_again, omitEmptyNat_again]
  · exact absurd hcp (by simp)

/-- A record that `Marshal` accepts has encodable dates. -/
theorem Marshal_dates (h : Heap) (r : Nat) (rv : Node) (v : Wire)
    (hr : h[r]? = some rv) (hv : Marshal h (some r) = some v) :
    (rv.CreationDate.encodable && rv.ModifiedDate.encodable) = true := by
  have hl : r < h.length := (List.getElem?_eq_some.mp hr).1
  obtain ⟨m, hm⟩ : ∃ m, h.length = m + 1 := ⟨h.length - 1, by omega⟩
  simp only [Marshal, hr, hm, marshalNode] at hv
  split at hv
  · next hd => exact hd
  · exact absurd hv (by simp)

/-- The outcome of `update` when the record can be encoded, the encoding is
not nested too deep and the receiver is allocated. -/
theorem update_of_Marshal (h : Heap) (n : Nat) (r : Ptr) (nv : Node) (v : Wire)
    (hn : h[n]? = some nv) (hm : Marshal h r = some v) (hd : v.depth ≤ maxNestingDepth) :
    update h (some n) r = (decodeObject v h n, none) := by
  simp [update, hm, Unmarshal, hn, Nat.not_lt.mpr hd]

/-- C19: when the record has no children and `update(n, r)` succeeds, a second
`update(n, r)` succeeds as well and leaves the whole heap, the node `n`
included, exactly as the first one left it. -/
theorem update_idempotent (h : Heap) (n r : Nat) (nv rv : Node)
    (hn : h[n]? = some nv) (hr : h[r]? = some rv) (hnil : rv.Nodes = [])
    (hok : (update h (some n) (some r)).2 = none) :
    update (update h (some n) (some r)).1 (some n) (some r)
      = ((update h (some n) (some r)).1, none) := by
  obtain ⟨v, hm, _, hdec⟩ := update_ok_decode h n (some r) nv hn hok
  obtain ⟨cp, kids, hcp, hv, hkids⟩ := Marshal_some h r rv v hr hm
  have hdates := Marshal_dates h r rv v hr hm
  have hk := hkids hnil
  subst hk
  have hroot : (marshalFields rv cp).root = omitEmptyBool rv.Root := rfl
  rw [hv, decodeObject_leaf_modify _ rv.Root hroot] at hdec
  rw [hdec]
  have hn1 : (modifyAt h n (fun x => { applyFields (marshalFields rv cp) x with
      Root := x.Root || rv.Root }))[n]?
      = some { applyFields (marshalFields rv cp) nv with Root := nv.Root || rv.Root } :=
    modifyAt_get_self h n _ nv hn
  have hleafdepth : ∀ f : WireFields, (Wire.obj f []).depth ≤ maxNestingDepth := by
    intro f
    have h1 : f.depth ≤ 1 := by
      unfold WireFields.depth
      split <;> omega
    have h2 : (Wire.obj f []).depth = 1 + max f.depth 0 := by simp [Wire.depth]
    rw [h2]
    have : max f.depth 0 ≤ 1 := by omega
    unfold maxNestingDepth
    omega
  by_cases hrn : r = n
  · subst hrn
    have hnv : nv = rv := by rw [hn] at hr; exact Option.some.inj hr
    subst hnv
    obtain ⟨cp1, hm1, hagain⟩ := merge_self_again nv cp hdates hcp hnil
    have hnil1 : ({ applyFields (marshalFields nv cp) nv with
        Root := nv.Root || nv.Root } : Node).Nodes = [] := by
      simpa [applyFields] using hnil
    have hM : Marshal (modifyAt h r (fun x => { applyFields (marshalFields nv cp) x with
        Root := x.Root || nv.Root })) (some r)
        = some (Wire.obj (marshalFields
            { applyFields (marshalFields nv cp) nv with Root := nv.Root || nv.Root } cp1) []) := by
      rw [Marshal_leaf _ r _ hn1 hnil1, hm1]
    have hstep : update (modifyAt h r (fun x => { applyFields (marshalFields nv cp) x with
        Root := x.Root || nv.Root })) (some r) (some r)
        = (decodeObject (Wire.obj (marshalFields
            { applyFields (marshalFields nv cp) nv with Root := nv.Root || nv.Root } cp1) [])
            (modifyAt h r (fun x => { applyFields (marshalFields nv cp) x with
              Root := x.Root || nv.Root })) r, none) := by
      exact update_of_Marshal _ r (some r) _ _ hn1 hM (hleafdepth _)
    have hroot1 : (marshalFields
        { applyFields (marshalFields nv cp) nv with Root := nv.Root || nv.Root } cp1).root
        = omitEmptyBool (nv.Root || nv.Root) := rfl
    rw [hstep, decodeObject_leaf_modify _ (nv.Root || nv.Root) hroot1, modifyAt_modifyAt]
    have hsame := modifyAt_congr h r _ _ hagain
    exact congrArg (fun hh => (hh, (none : Option UpdateError))) hsame
  · have hr1 : (modifyAt h n (fun x => { applyFields (marshalFields rv cp) x with
        Root := x.Root || rv.Root }))[r]? = some rv := by
      rw [modifyAt_get_ne h n r _ hrn]; exact hr
    have hm1 : Marshal (modifyAt h n (fun x => { applyFields (marshalFields rv cp) x with
        Root := x.Root || rv.Root })) (some r) = some (Wire.obj (marshalFields rv cp) []) := by
      rw [Marshal_leaf _ r rv hr1 hnil, ← Marshal_leaf h r rv hr hnil, hm, hv]
    have hstep : update (modifyAt h n (fun x => { applyFields (marshalFields rv cp) x with
        Root := x.Root || rv.Root })) (some n) (some r)
        = (decodeObject (Wire.obj (marshalFields rv cp) [])
            (modifyAt h n (fun x => { applyFields (marshalFields rv cp) x with
              Root := x.Root || rv.Root })) n, none) := by
      exact update_of_Marshal _ n (some r) _ _ hn1 hm1 (hleafdepth _)
    rw [hstep, decodeObject_leaf_modify _ rv.Root hroot, modifyAt_modifyAt]
    have hsame := modifyAt_congr h n
      (fun x => { applyFields (marshalFields rv cp)
          { applyFields (marshalFields rv cp) x with Root := x.Root || rv.Root } with
          Root := (x.Root || rv.Root) || rv.Root })
      (fun x => { applyFields (marshalFields rv cp) x with Root := x.Root || rv.Root })
      (fun x => merge_twice (marshalFields rv cp) rv.Root x)
    exact congrArg (fun hh => (hh, (none : Option UpdateError))) hsame

/-- Witness of C19: the merge scenario, applied twice. -/
theorem update_idempotent_witness :
    heapMerge[0]? = some mergeNode
    ∧ heapMerge[1]? = some mergeRecord
    ∧ (update heapMerge (some 0) (some 1)).2 = none
    ∧ update (update heapMerge (some 0) (some 1)).1 (some 0) (some 1)
      = ((update heapMerge (some 0) (some 1)).1, none) :=
  ⟨rfl, rfl, by decide,
    update_idempotent heapMerge 0 1 mergeNode mergeRecord rfl rfl rfl (by decide)⟩

/-- A node whose name is not valid UTF-8, merged into itself: the first merge
rewrites the name, the second changes nothing more. -/
theorem update_self_bad_bytes :
    (update [{ Node.zero with Name := [0xFF] }] (some 0) (some 0))
      = ([{ Node.zero with Name := [0xEF, 0xBF, 0xBD] }], none)
    ∧ (update [{ Node.zero with Name := [0xEF, 0xBF, 0xBD] }] (some 0) (some 0))
      = ([{ Node.zero with Name := [0xEF, 0xBF, 0xBD] }], none) := by
  decide

end Nodetree
